import Mathlib

/-!
Verification of the prompt-replay editor extension's event capture, event
store and restore subsystem, against a shallow embedding of the TypeScript
source (`src/extension.ts`, `src/store.ts`, `src/git.ts` and the sibling
variants of `extension.ts` that support restoring either side of an event).

Modelling conventions:

* File contents and file paths are sequences of characters (`Str`); the
  UTF-8 encoding performed by `Buffer.from(text, 'utf8')` is injective and
  is modelled as the identity on character sequences.
* The file system is a partial map from absolute paths to contents (`FS`);
  the editor primitives `stat` / `readFile` / `writeFile` / `delete` become
  lookups and pointwise updates, and `createDirectory` (whose failures the
  source swallows at every call site) is a no-op.
* `path.join(a, b)` is modelled as `a ++ "/" ++ b`, which agrees with
  node's `path.join` on the already-normalized segments the source builds.
* `getFileAtRef` shells out to `git show ref:path` and returns `undefined`
  on any failure; it is modelled as an oracle `gitShow : Str → Str → Option Str`
  with `none` for every failure mode, exactly like the source's catch-all.
* `vscode.Uri` values are `Loc` records (scheme, fsPath); `Uri.toString`
  followed by `Uri.parse` is modelled as the identity, and the JSON
  round-trip of the in-memory backup manifest through `manifest.json`
  within a single restore invocation is likewise modelled as the identity.
* A thrown exception that the source does not catch locally is modelled
  with `Except`, the error value carrying the file system as mutated so
  far; injected I/O failures are driven by boolean oracles on paths.
-/

/-- Character sequences: the model of both JavaScript strings and `Buffer`
contents. -/
abbrev Str := List Char

/-- The file system: a partial map from absolute paths to file contents. -/
abbrev FS := Str → Option Str

/-- Pointwise file-system update: models `writeFile` (with `some c`) and a
successful `delete` (with `none`). -/
def fsUpd (fs : FS) (p : Str) (v : Option Str) : FS :=
  fun q => if q = p then v else fs q

/-- The all-clear I/O fault oracle: no injected failures. -/
def alwaysFalse : Str → Bool := fun _ => false

/-- JavaScript's `String.prototype.split(sep)` on character sequences:
splits at every occurrence of `sep`, keeping empty pieces. -/
def jsSplit (sep : Char) : Str → List Str
  | [] => [[]]
  | c :: rest =>
    match jsSplit sep rest with
    | [] => [[]]
    | h :: t => if c = sep then [] :: h :: t else (c :: h) :: t

/-- `content.split('\n').filter(Boolean)` from `Store.appendEvent` /
`Store.readEvents`: the non-empty lines of a log file. -/
def jsLines (s : Str) : List Str :=
  (jsSplit '\n' s).filter (fun l => !l.isEmpty)

/-- JavaScript's `Array.prototype.join(sep)` for a one-character
separator. -/
def jsJoin (sep : Char) : List Str → Str
  | [] => []
  | [a] => a
  | a :: b :: t => a ++ sep :: jsJoin sep (b :: t)

/-- A log content "ends well": it is empty or its last character is a
newline.  Every write the store itself performs leaves the log in this
shape. -/
def endsWithNewline (s : Str) : Prop := s = [] ∨ ∃ t, s = t ++ ['\n']

/-- `Store.appendEvent` (src/store.ts lines 35-59): append the serialized
event (`line`, without its trailing newline) to the log file content `old`
(`none` when the file does not exist yet), then trim to the newest
`maxEvents` lines when the line count exceeds `maxEvents`.  Returns the
content written back to `events.jsonl`. -/
def appendEventContent (old : Option Str) (line : Str) (maxEvents : Nat) : Str :=
  let content := (old.getD []) ++ line ++ ['\n']
  let lines := jsLines content
  if maxEvents < lines.length then
    jsJoin '\n' (lines.drop (lines.length - maxEvents)) ++ ['\n']
  else content

/-- `lines.map(l => JSON.parse(l))` with exception semantics: the first
line that fails to parse makes the whole map throw (here: return
`none`). -/
def mapParse {α : Type} (parse : Str → Option α) : List Str → Option (List α)
  | [] => some []
  | l :: rest =>
    match parse l, mapParse parse rest with
    | some v, some vs => some (v :: vs)
    | _, _ => none

/-- `Store.readEvents` (src/store.ts lines 61-71): read the log file
(`none` when missing), split into non-empty lines and parse each; the
single surrounding `try/catch` turns any parse failure into an empty
result. -/
def readEvents {α : Type} (file : Option Str) (parse : Str → Option α) : List α :=
  match file with
  | none => []
  | some buf =>
    match mapParse parse (jsLines buf) with
    | some evs => evs
    | none => []

/-- The classification a changed file receives at build time. -/
inductive Op
  | added
  | modified
  | deleted
deriving DecidableEq

/-- A `vscode.Uri` as far as the restore code consults it: its scheme and
its `fsPath`. -/
structure Loc where
  scheme : Str
  fsPath : Str
deriving DecidableEq

/-- One element of a persisted event's `diffUris` array.  `op` is optional
because the restore code reads it as `string | undefined`. -/
structure DiffEntry where
  path : Str
  left : Option Loc
  right : Option Loc
  op : Option Op
deriving DecidableEq

/-- One entry of a git change list (`workingTreeChanges` /
`indexChanges`), with the fields `collectWorkingDiff` consults. -/
structure Change where
  uri : Str
  originalUri : Option Str
  renameResourceUri : Option Str
deriving DecidableEq

/-- One element of the list `collectWorkingDiff` returns. -/
structure WorkingDiff where
  path : Str
  left : Str
  right : Str
deriving DecidableEq

/-- One entry of the restore backup manifest. -/
structure BackupEntry where
  path : Str
  existed : Bool
deriving DecidableEq

/-- The per-restore outcome counters. -/
structure Counts where
  restored : Nat
  deleted : Nat
  skipped : Nat
  errors : Nat
deriving DecidableEq

/-- All counters at zero. -/
def czero : Counts := ⟨0, 0, 0, 0⟩

/-- `d.path.replace(/\\/g, '/')`: normalize a path to forward slashes. -/
def normPath (p : Str) : Str :=
  p.map fun c => if c = '\\' then '/' else c

/-- The segment every path owned by the extension starts with, relative to
the repository root. -/
def prRoot : Str := "/.promptreplay/".data

/-- `path.join(repoRoot, '.promptreplay', 'snapshots', id)`: the snapshot
directory of one event. -/
def snapsDir (root evId : Str) : Str :=
  root ++ prRoot ++ "snapshots/".data ++ evId

/-- The `__before__` subtree of an event's snapshot directory. -/
def beforeDir (root evId : Str) : Str := snapsDir root evId ++ "/__before__".data

/-- The `__after__` subtree of an event's snapshot directory. -/
def afterDir (root evId : Str) : Str := snapsDir root evId ++ "/__after__".data

/-- Where the before-snapshot of file `rel` is written. -/
def leftSnapPath (root evId rel : Str) : Str := beforeDir root evId ++ '/' :: rel

/-- Where the after-snapshot of file `rel` is written. -/
def rightSnapPath (root evId rel : Str) : Str := afterDir root evId ++ '/' :: rel

/-- `path.join(root, rel)`: the working-tree location of file `rel`. -/
def targetPath (root rel : Str) : Str := root ++ '/' :: rel

/-- The inputs of one `logPrompt` build: repository root, fresh event id,
the optional checkpoint reference held by the session, the `git show`
oracle, and an injected write-failure oracle (`failWrite p = true` models
`writeFile` throwing at path `p`). -/
structure BuildCtx where
  root : Str
  evId : Str
  checkpointRef : Option Str
  gitShow : Str → Str → Option Str
  failWrite : Str → Bool

/-- `checkpointRef ? await getFileAtRef(repoRoot, checkpointRef, rel) :
undefined` (src/extension.ts line 131). -/
def leftTextOf (c : BuildCtx) (rel : Str) : Option Str :=
  match c.checkpointRef with
  | some r => c.gitShow r rel
  | none => none

/-- The body of the snapshot loop of `logPrompt` (src/extension.ts lines
127-155) for one changed file `p`: write the before-snapshot (checkpoint
content, or a zero-byte placeholder), then write the after-snapshot
(current on-disk content, or a zero-byte placeholder) and classify the
file.  An injected `writeFile` failure propagates as an uncaught
exception, carrying the file system as mutated so far. -/
def snapshotFile (c : BuildCtx) (fs : FS) (p : Str) : Except FS (FS × Op) :=
  let rel := normPath p
  let leftText := leftTextOf c rel
  let lsnap := leftSnapPath c.root c.evId rel
  if c.failWrite lsnap then .error fs
  else
    let fs1 := fsUpd fs lsnap (some (leftText.getD []))
    let tgt := targetPath c.root rel
    let rsnap := rightSnapPath c.root c.evId rel
    match fs1 tgt with
    | some buf =>
      if c.failWrite rsnap then .error fs1
      else .ok (fsUpd fs1 rsnap (some buf),
        if leftText = none then Op.added else Op.modified)
    | none =>
      if c.failWrite rsnap then .error fs1
      else .ok (fsUpd fs1 rsnap (some ([] : Str)), Op.deleted)

/-- The snapshot loop of `logPrompt` over all changed files, accumulating
the file system and the `ops` record (keyed by normalized path, later
entries overwriting earlier ones, as JavaScript object assignment does). -/
def buildLoop (c : BuildCtx) : List Str → FS → (Str → Option Op) →
    Except FS (FS × (Str → Option Op))
  | [], fs, ops => .ok (fs, ops)
  | p :: rest, fs, ops =>
    match snapshotFile c fs p with
    | .error fsE => .error fsE
    | .ok (fs1, op) =>
      buildLoop c rest fs1 (fun q => if q = normPath p then some op else ops q)

/-- `ev.diffUris = diffs.map(...)` (src/extension.ts lines 157-165): one
entry per changed file, pointing at the two on-disk snapshot locations,
with the op looked up in the accumulated `ops` record. -/
def mkDiffUris (c : BuildCtx) (diffs : List Str) (ops : Str → Option Op) :
    List DiffEntry :=
  diffs.map fun p =>
    let rel := normPath p
    ⟨rel, some ⟨"file".data, leftSnapPath c.root c.evId rel⟩,
      some ⟨"file".data, rightSnapPath c.root c.evId rel⟩, ops rel⟩

/-- What `logPrompt` has produced once the snapshot loop finished: the
mutated file system, `filesChanged` (the raw diff paths) and
`diffUris`. -/
structure BuildResult where
  fs : FS
  filesChanged : List Str
  entries : List DiffEntry

/-- The event-building part of `logPrompt` (src/extension.ts lines
100-165), starting from the filtered change list `diffs` (only the
`path` field of each change descriptor is ever consulted). -/
def buildEvent (c : BuildCtx) (diffs : List Str) (fs : FS) :
    Except FS BuildResult :=
  match buildLoop c diffs fs (fun _ => none) with
  | .error fsE => .error fsE
  | .ok (fs1, ops) => .ok ⟨fs1, diffs, mkDiffUris c diffs ops⟩

/-- The `diffUris` of a build, or `[]` if the build aborted with an
uncaught exception. -/
def buildEntriesOr (c : BuildCtx) (diffs : List Str) (fs : FS) : List DiffEntry :=
  match buildEvent c diffs fs with
  | .ok r => r.entries
  | .error _ => []

/-- The file system after a build (also after an aborted build, whose
partial snapshot writes persist). -/
def buildFsOr (c : BuildCtx) (diffs : List Str) (fs : FS) : FS :=
  match buildEvent c diffs fs with
  | .ok r => r.fs
  | .error fsE => fsE

/-- `logPrompt` from the snapshot loop to persistence: build the event,
then `store.appendEvent(ev, maxEvents)` (src/extension.ts line 167).  An
uncaught exception in the loop leaves the log untouched.  `serialize` is
the `JSON.stringify` oracle for the assembled event. -/
def logPromptCore (c : BuildCtx) (diffs : List Str) (fs : FS)
    (log : Option Str) (maxEvents : Nat) (serialize : List DiffEntry → Str) :
    FS × Option Str :=
  match buildEvent c diffs fs with
  | .error fsE => (fsE, log)
  | .ok r => (r.fs, some (appendEventContent log (serialize r.entries) maxEvents))

/-- `collectWorkingDiff` (src/git.ts lines 673-691): concatenate the
repository's working-tree changes and index changes and map each to a
`{path, left, right}` descriptor; `relOf` models
`vscode.workspace.asRelativePath`. -/
def collectWorkingDiff (relOf : Str → Str) (wt idx : List Change) :
    List WorkingDiff :=
  (wt ++ idx).map fun ch =>
    ⟨relOf ch.uri, ch.originalUri.getD (ch.renameResourceUri.getD ch.uri), ch.uri⟩

/-- The classification `logPrompt` records, phrased as a function of the
state at build time: `deleted` when the file is not on disk, otherwise
`added` when no checkpoint was active or the file was absent at the
checkpoint, otherwise `modified`. -/
def classify (c : BuildCtx) (fs : FS) (rel : Str) : Op :=
  if fs (targetPath c.root rel) = none then Op.deleted
  else if leftTextOf c rel = none then Op.added
  else Op.modified

/-- Non-interference side condition: no changed file's working-tree path
lies inside the extension's own `.promptreplay` area. -/
def targetsOutside (root : Str) (diffs : List Str) : Bool :=
  diffs.all fun p => !((root ++ prRoot).isPrefixOf (targetPath root (normPath p)))

/-- Non-interference side condition on an event's `diffUris`: no entry's
working-tree path lies inside the `.promptreplay` area. -/
def entriesOutside (root : Str) (entries : List DiffEntry) : Bool :=
  entries.all fun d => !((root ++ prRoot).isPrefixOf (targetPath root d.path))

/-- The inputs of one restore invocation: repository root, the event id
being restored, the fresh backup id, an injected read-failure oracle
(`ioFail p = true` models `readFile` throwing at path `p` during the
backup loop) and the `JSON.stringify` oracle for the manifest. -/
structure RestoreCtx where
  root : Str
  evId : Str
  backupId : Str
  ioFail : Str → Bool
  encodeManifest : List BackupEntry → Str

/-- `path.join(root, '.promptreplay', 'restore_backups', backupId)`. -/
def backupDir (rc : RestoreCtx) : Str :=
  rc.root ++ prRoot ++ "restore_backups/".data ++ rc.backupId

/-- The `before` subtree of the backup directory. -/
def backupBeforeDir (rc : RestoreCtx) : Str := backupDir rc ++ "/before".data

/-- Where the pre-restore copy of file `rel` is kept. -/
def backupFilePath (rc : RestoreCtx) (rel : Str) : Str :=
  backupBeforeDir rc ++ '/' :: rel

/-- `path.join(backupDir, 'manifest.json')`. -/
def manifestPath (rc : RestoreCtx) : Str := backupDir rc ++ "/manifest.json".data

/-- The backup loop of `handleRestoreEvent` (src/extension.ts lines
462-475, identical in the both-sides variant): for every event entry,
stat the working-tree file, record `{path, existed}` and, when it exists,
copy its bytes into the backup area.  The copy's `readFile` is not
guarded, so an injected failure aborts the whole restore. -/
def backupPhase (rc : RestoreCtx) : List DiffEntry → FS → List BackupEntry →
    Except FS (FS × List BackupEntry)
  | [], fs, acc => .ok (fs, acc)
  | d :: rest, fs, acc =>
    let tgt := targetPath rc.root d.path
    match fs tgt with
    | some buf =>
      if rc.ioFail tgt then .error fs
      else backupPhase rc rest
        (fsUpd fs (backupFilePath rc d.path) (some buf)) (acc ++ [⟨d.path, true⟩])
    | none => backupPhase rc rest fs (acc ++ [⟨d.path, false⟩])

/-- The mutation step of `handleRestoreEvent` in src/extension.ts (lines
482-506), which always applies the AFTER side: delete the target when
`op === 'deleted'` (a failing delete is counted as skipped); otherwise
apply the `right` snapshot only when it is a `file:`-scheme location whose
`fsPath` starts with `path.join(root, '.promptreplay', 'snapshots', id)`,
counting everything else as skipped; an unreadable snapshot counts as an
error. -/
def applyStepMain (rc : RestoreCtx) (st : FS × Counts) (d : DiffEntry) :
    FS × Counts :=
  let fs := st.1
  let cnt := st.2
  let tgt := targetPath rc.root d.path
  if d.op = some Op.deleted then
    match fs tgt with
    | some _ => (fsUpd fs tgt none, {cnt with deleted := cnt.deleted + 1})
    | none => (fs, {cnt with skipped := cnt.skipped + 1})
  else
    match d.right with
    | none => (fs, {cnt with skipped := cnt.skipped + 1})
    | some loc =>
      if loc.scheme = "file".data ∧ snapsDir rc.root rc.evId <+: loc.fsPath then
        match fs loc.fsPath with
        | none => (fs, {cnt with errors := cnt.errors + 1})
        | some buf =>
          (fsUpd fs tgt (some buf), {cnt with restored := cnt.restored + 1})
      else (fs, {cnt with skipped := cnt.skipped + 1})

/-- The restore side selector of the both-sides `handleRestoreEvent`
variant. -/
inductive Side
  | before
  | after
deriving DecidableEq

/-- `readBytesFlexible` (both-sides extension variant, lines 29-46): parse
the stored location string and read its bytes, `undefined` on any
failure. -/
def readBytesFlexible (fs : FS) (o : Option Loc) : Option Str :=
  match o with
  | none => none
  | some loc => fs loc.fsPath

/-- The mutation step of the both-sides `handleRestoreEvent` variant
(lines 647-685): restoring AFTER deletes when `op === 'deleted'` and
otherwise writes the `right` snapshot bytes; restoring BEFORE deletes when
`op === 'added'` and otherwise writes the `left` snapshot bytes; an
unreadable snapshot is counted as skipped, a failing delete as
skipped. -/
def applyStep2 (root : Str) (side : Side) (st : FS × Counts) (d : DiffEntry) :
    FS × Counts :=
  let fs := st.1
  let cnt := st.2
  let tgt := targetPath root d.path
  match side with
  | .after =>
    if d.op = some Op.deleted then
      match fs tgt with
      | some _ => (fsUpd fs tgt none, {cnt with deleted := cnt.deleted + 1})
      | none => (fs, {cnt with skipped := cnt.skipped + 1})
    else
      match readBytesFlexible fs d.right with
      | none => (fs, {cnt with skipped := cnt.skipped + 1})
      | some bytes =>
        (fsUpd fs tgt (some bytes), {cnt with restored := cnt.restored + 1})
  | .before =>
    if d.op = some Op.added then
      match fs tgt with
      | some _ => (fsUpd fs tgt none, {cnt with deleted := cnt.deleted + 1})
      | none => (fs, {cnt with skipped := cnt.skipped + 1})
    else
      match readBytesFlexible fs d.left with
      | none => (fs, {cnt with skipped := cnt.skipped + 1})
      | some bytes =>
        (fsUpd fs tgt (some bytes), {cnt with restored := cnt.restored + 1})

/-- The outcome of one restore invocation: the resulting file system, the
backup manifest (`none` when the backup phase aborted the restore before
any mutation) and the counters. -/
structure RestoreResult where
  fs : FS
  manifest : Option (List BackupEntry)
  counts : Counts

/-- `handleRestoreEvent` of src/extension.ts (lines 435-510, after the
user confirmation): run the backup loop, persist the manifest, then apply
the AFTER snapshots.  A backup-phase exception aborts the whole restore
with no mutation phase. -/
def handleRestoreEventMain (rc : RestoreCtx) (entries : List DiffEntry)
    (fs : FS) : RestoreResult :=
  match backupPhase rc entries fs [] with
  | .error fsE => ⟨fsE, none, czero⟩
  | .ok (fs1, manifest) =>
    let fs2 := fsUpd fs1 (manifestPath rc) (some (rc.encodeManifest manifest))
    let st := entries.foldl (applyStepMain rc) (fs2, czero)
    ⟨st.1, some manifest, st.2⟩

/-- `handleRestoreEvent` of the both-sides variant (lines 600-689): the
same backup loop, then the side-aware mutation loop. -/
def handleRestoreEvent2 (rc : RestoreCtx) (side : Side)
    (entries : List DiffEntry) (fs : FS) : RestoreResult :=
  match backupPhase rc entries fs [] with
  | .error fsE => ⟨fsE, none, czero⟩
  | .ok (fs1, manifest) =>
    let fs2 := fsUpd fs1 (manifestPath rc) (some (rc.encodeManifest manifest))
    let st := entries.foldl (applyStep2 rc.root side) (fs2, czero)
    ⟨st.1, some manifest, st.2⟩

/-- One step of the undo loop (src/extension.ts lines 517-534): a
backed-up file is written back from its backup copy, a file that did not
exist before the restore is deleted; a missing backup copy or a failing
delete is counted as an error. -/
def undoStep (rc : RestoreCtx) (st : FS × Counts) (e : BackupEntry) :
    FS × Counts :=
  let fs := st.1
  let cnt := st.2
  let tgt := targetPath rc.root e.path
  let bf := backupFilePath rc e.path
  if e.existed then
    match fs bf with
    | none => (fs, {cnt with errors := cnt.errors + 1})
    | some buf =>
      (fsUpd fs tgt (some buf), {cnt with restored := cnt.restored + 1})
  else
    match fs tgt with
    | some _ => (fsUpd fs tgt none, {cnt with deleted := cnt.deleted + 1})
    | none => (fs, {cnt with errors := cnt.errors + 1})

/-- The undo pass of `handleRestoreEvent` (src/extension.ts lines
512-539): replay the backup manifest over the post-restore file
system. -/
def undoRestore (rc : RestoreCtx) (manifest : List BackupEntry) (fs : FS) :
    FS × Counts :=
  manifest.foldl (undoStep rc) (fs, czero)

/-- Modelled from the spec: a location "resolves to a location inside that
event's own snapshot subtree" when the snapshot directory, followed by a
path separator, is an initial segment of it — i.e. when the location
denotes a file strictly inside that directory, not inside a sibling whose
name merely extends the event id. -/
def resolvesInsideDir (dir p : Str) : Prop := dir ++ "/".data <+: p

/-- An update that may or may not happen: `none` leaves the file system
unchanged, `some v` sets path `p` to `v`. -/
def updOpt (fs : FS) (p : Str) : Option (Option Str) → FS
  | none => fs
  | some v => fsUpd fs p v

/-- The snapshot location a given restore side reads from. -/
def sideLoc (side : Side) (d : DiffEntry) : Option Loc :=
  match side with
  | .after => d.right
  | .before => d.left

/-- The net effect of one `applyStep2` iteration on its target path, as a
function of the file-system state `fs0` the mutation loop started from:
`some none` removes the file, `some (some b)` writes `b`, `none` leaves it
unchanged (the "skipped" outcomes). -/
def eff2 (side : Side) (fs0 : FS) (d : DiffEntry) : Option (Option Str) :=
  match side with
  | .after =>
    if d.op = some Op.deleted then some none
    else
      match readBytesFlexible fs0 d.right with
      | none => none
      | some b => some (some b)
  | .before =>
    if d.op = some Op.added then some none
    else
      match readBytesFlexible fs0 d.left with
      | none => none
      | some b => some (some b)

/-- The net effect of one `undoStep` iteration on its target path, as a
function of the file-system state `fs0` the undo loop started from. -/
def effUndo (rc : RestoreCtx) (fs0 : FS) (e : BackupEntry) : Option (Option Str) :=
  if e.existed then
    match fs0 (backupFilePath rc e.path) with
    | none => none
    | some b => some (some b)
  else some none

/-- `fs` agrees with `fs0` on every path outside the region `T`. -/
def agreeOutside (T : Str → Prop) (fs0 fs : FS) : Prop :=
  ∀ q, ¬ T q → fs q = fs0 q

/-- Helper for reasoning about `jsSplit` on appended strings: prepend `a`
to the first piece of a split result. -/
def glue (a : Str) : List Str → List Str
  | [] => [a]
  | h :: t => (a ++ h) :: t

/-- Helper: merge two split results, fusing the last piece of the first
with the first piece of the second, as splitting the concatenation
does. -/
def glueSplit : List Str → List Str → List Str
  | [], l₂ => l₂
  | [a], l₂ => glue a l₂
  | a :: b :: t, l₂ => a :: glueSplit (b :: t) l₂

/-! ### Concrete instances used to evaluate the development

Small closed working trees, repositories and events on which the theorems
below are instantiated. -/

/-- A build context: root `/r`, event id `E`, checkpoint `R`; at `R` the
repository contains only `a` (with content `L`). -/
def c1c : BuildCtx :=
  ⟨"/r".data, "E".data, some "R".data,
    fun r rel => if r = "R".data ∧ rel = "a".data then some "L".data else none,
    alwaysFalse⟩

/-- Three changed files: `a` (modified), `b` (new), `c` (deleted). -/
def diffs1 : List Str := ["a".data, "b".data, "c".data]

/-- The working tree at build time: `a` and `b` exist, `c` does not. -/
def fs1ex : FS := fun p =>
  if p = "/r/a".data then some "x".data
  else if p = "/r/b".data then some "y".data
  else none

/-- The `diffUris` entry the build produces for the deleted file `c`. -/
def e1c : DiffEntry :=
  ⟨"c".data, some ⟨"file".data, leftSnapPath "/r".data "E".data "c".data⟩,
    some ⟨"file".data, rightSnapPath "/r".data "E".data "c".data⟩,
    some Op.deleted⟩

/-- A build context where every file has content `L` at the checkpoint. -/
def c2c : BuildCtx :=
  ⟨"/r".data, "E".data, some "R".data, fun _ _ => some "L".data, alwaysFalse⟩

/-- One changed file `a`. -/
def diffs2 : List Str := ["a".data]

/-- The working tree at build time: `a` has content `x`. -/
def fs2ex : FS := fun p => if p = "/r/a".data then some "x".data else none

/-- The `diffUris` entry the build produces for `a` (modified). -/
def e2a : DiffEntry :=
  ⟨"a".data, some ⟨"file".data, leftSnapPath "/r".data "E".data "a".data⟩,
    some ⟨"file".data, rightSnapPath "/r".data "E".data "a".data⟩,
    some Op.modified⟩

/-- A restore context matching `c2c`'s root and event id. -/
def rc2 : RestoreCtx :=
  ⟨"/r".data, "E".data, "B".data, alwaysFalse, fun _ => "m".data⟩

/-- An event entry marked deleted. -/
def d3del : DiffEntry := ⟨"a".data, none, none, some Op.deleted⟩

/-- An event entry marked modified whose snapshots live at `/r/s`. -/
def d3mod : DiffEntry :=
  ⟨"a".data, some ⟨"file".data, "/r/s".data⟩, some ⟨"file".data, "/r/s".data⟩,
    some Op.modified⟩

/-- An event entry marked added. -/
def d3add : DiffEntry :=
  ⟨"a".data, some ⟨"file".data, "/r/s".data⟩, some ⟨"file".data, "/r/s".data⟩,
    some Op.added⟩

/-- A working tree where the target `a` exists and the snapshot `/r/s`
holds content `s`. -/
def fs3ex : FS := fun p =>
  if p = "/r/a".data then some "x".data
  else if p = "/r/s".data then some "s".data
  else none

/-- A restore context with no injected faults. -/
def rc4 : RestoreCtx :=
  ⟨"/r".data, "E".data, "B".data, alwaysFalse, fun _ => "m".data⟩

/-- An event with two entries: `a` (modified, exists on disk) and `b`
(deleted, missing on disk); `a`'s after-snapshot sits inside the event's
snapshot directory. -/
def entries4 : List DiffEntry :=
  [⟨"a".data, some ⟨"file".data, leftSnapPath "/r".data "E".data "a".data⟩,
      some ⟨"file".data, rightSnapPath "/r".data "E".data "a".data⟩,
      some Op.modified⟩,
    ⟨"b".data, none, none, some Op.deleted⟩]

/-- A working tree for restoring `entries4`: target `a` has content `old`,
target `b` is absent, and `a`'s after-snapshot holds `new`. -/
def fs4ex : FS := fun p =>
  if p = "/r/a".data then some "old".data
  else if p = rightSnapPath "/r".data "E".data "a".data then some "new".data
  else none

/-- A restore context whose event id is `E`. -/
def rc6 : RestoreCtx :=
  ⟨"/r".data, "E".data, "B".data, alwaysFalse, fun _ => "m".data⟩

/-- A location that passes the lexical prefix check of the restore code
although it lies in the sibling directory `Eevil`, outside event `E`'s own
snapshot directory. -/
def evilLoc : Loc := ⟨"file".data, "/r/.promptreplay/snapshots/Eevil/x".data⟩

/-- An entry whose after-snapshot location is `evilLoc`. -/
def d6 : DiffEntry := ⟨"a".data, none, some evilLoc, some Op.modified⟩

/-- A file system holding content `h` at the evil location and no file at
the target. -/
def fs6ex : FS := fun p => if p = evilLoc.fsPath then some "h".data else none

/-- A build context whose write oracle fails exactly on the before-snapshot
path of file `b`. -/
def c7c : BuildCtx :=
  ⟨"/r".data, "E".data, none, fun _ _ => none,
    fun p => p == leftSnapPath "/r".data "E".data "b".data⟩

/-- Two changed files `a` and `b`. -/
def diffs7 : List Str := ["a".data, "b".data]

/-- Both files exist on disk at build time. -/
def fs7ex : FS := fun p =>
  if p = "/r/a".data ∨ p = "/r/b".data then some "x".data else none

/-- A serialization oracle for events. -/
def ser7 : List DiffEntry → Str := fun _ => "e".data

/-- A parse oracle accepting exactly the line `A` (as event `0`). -/
def parse8 : Str → Option Nat := fun l => if l = "A".data then some 0 else none

/-- A two-line log whose second line does not parse. -/
def buf8 : Str := "A
B
".data

/-- The identity relative-path oracle. -/
def relOfId : Str → Str := fun s => s

/-- A change descriptor for the file `u`. -/
def ch10 : Change := ⟨"u".data, none, none⟩

/-- A build context with no checkpoint. -/
def c10c : BuildCtx := ⟨"/r".data, "E".data, none, fun _ _ => none, alwaysFalse⟩

/-- A working tree where `u` exists. -/
def fs10ex : FS := fun p => if p = "/r/u".data then some "x".data else none

/-! ### Basic facts about file-system updates and path shapes -/

theorem fsUpd_same (fs : FS) (p : Str) (v : Option Str) : fsUpd fs p v p = v := by
  simp [fsUpd]

theorem fsUpd_ne (fs : FS) (p : Str) (v : Option Str) {q : Str} (h : q ≠ p) :
    fsUpd fs p v q = fs q := by
  simp [fsUpd, h]

theorem fsUpd_none_self (fs : FS) (p : Str) (h : fs p = none) :
    fsUpd fs p none = fs := by
  funext q
  by_cases hq : q = p
  · subst hq; simp [fsUpd, h]
  · simp [fsUpd, hq]

theorem ne_of_not_pref {p q : Str} (h : ¬ p <+: q) : p ≠ q := by
  intro he
  exact h (he ▸ List.prefix_refl p)

theorem ne_of_pref_not_pref {pre p q : Str} (hp : pre <+: p)
    (hq : ¬ pre <+: q) : p ≠ q := by
  intro h
  exact hq (h ▸ hp)

theorem not_prefix_diverge (a : Str) (c d : Char) (x y : Str) (h : c ≠ d) :
    ¬ (a ++ c :: x <+: a ++ d :: y) := by
  intro hp
  rw [List.prefix_append_right_inj, List.cons_prefix_cons] at hp
  exact h hp.1

theorem not_prefix_diverge2 (a : Str) (c d e : Char) (x y : Str) (h : d ≠ e) :
    ¬ (a ++ c :: d :: x <+: a ++ c :: e :: y) := by
  intro hp
  rw [List.prefix_append_right_inj, List.cons_prefix_cons,
    List.cons_prefix_cons] at hp
  exact h hp.2.1

theorem snapsDir_decomp (root evId : Str) :
    snapsDir root evId = (root ++ prRoot) ++ 's' :: ("napshots/".data ++ evId) := by
  simp [snapsDir, List.append_assoc]

theorem backupDir_decomp (rc : RestoreCtx) :
    backupDir rc = (rc.root ++ prRoot) ++ 'r' :: ("estore_backups/".data ++ rc.backupId) := by
  simp [backupDir, List.append_assoc]

theorem prRoot_prefix_snapsDir (root evId : Str) :
    root ++ prRoot <+: snapsDir root evId := by
  rw [snapsDir_decomp]
  exact List.prefix_append _ _

theorem prRoot_prefix_backupDir (rc : RestoreCtx) :
    rc.root ++ prRoot <+: backupDir rc := by
  rw [backupDir_decomp]
  exact List.prefix_append _ _

theorem snapsDir_prefix_lsnap (root evId rel : Str) :
    snapsDir root evId <+: leftSnapPath root evId rel := by
  show snapsDir root evId <+: snapsDir root evId ++ "/__before__".data ++ '/' :: rel
  rw [List.append_assoc]
  exact List.prefix_append _ _

theorem snapsDir_prefix_rsnap (root evId rel : Str) :
    snapsDir root evId <+: rightSnapPath root evId rel := by
  show snapsDir root evId <+: snapsDir root evId ++ "/__after__".data ++ '/' :: rel
  rw [List.append_assoc]
  exact List.prefix_append _ _

theorem prRoot_prefix_lsnap (root evId rel : Str) :
    root ++ prRoot <+: leftSnapPath root evId rel :=
  (prRoot_prefix_snapsDir root evId).trans (snapsDir_prefix_lsnap root evId rel)

theorem prRoot_prefix_rsnap (root evId rel : Str) :
    root ++ prRoot <+: rightSnapPath root evId rel :=
  (prRoot_prefix_snapsDir root evId).trans (snapsDir_prefix_rsnap root evId rel)

theorem lsnap_eq_assoc (root evId rel : Str) :
    leftSnapPath root evId rel
      = (snapsDir root evId ++ "/__".data) ++ 'b' :: ("efore__".data ++ '/' :: rel) := by
  show snapsDir root evId ++ "/__before__".data ++ '/' :: rel = _
  have h : "/__before__".data = "/__".data ++ 'b' :: "efore__".data := rfl
  rw [h]
  simp [List.append_assoc]

theorem rsnap_eq_assoc (root evId rel : Str) :
    rightSnapPath root evId rel
      = (snapsDir root evId ++ "/__".data) ++ 'a' :: ("fter__".data ++ '/' :: rel) := by
  show snapsDir root evId ++ "/__after__".data ++ '/' :: rel = _
  have h : "/__after__".data = "/__".data ++ 'a' :: "fter__".data := rfl
  rw [h]
  simp [List.append_assoc]

theorem lsnap_ne_rsnap (root evId rel rel' : Str) :
    leftSnapPath root evId rel ≠ rightSnapPath root evId rel' := by
  rw [lsnap_eq_assoc, rsnap_eq_assoc]
  exact ne_of_not_pref (not_prefix_diverge _ 'b' 'a' _ _ (by decide))

theorem lsnap_inj (root evId : Str) {rel rel' : Str}
    (h : leftSnapPath root evId rel = leftSnapPath root evId rel') : rel = rel' := by
  unfold leftSnapPath at h
  have h2 := List.append_cancel_left h
  exact (List.cons.inj h2).2

theorem rsnap_inj (root evId : Str) {rel rel' : Str}
    (h : rightSnapPath root evId rel = rightSnapPath root evId rel') : rel = rel' := by
  unfold rightSnapPath at h
  have h2 := List.append_cancel_left h
  exact (List.cons.inj h2).2

theorem targetPath_inj (root : Str) {rel rel' : Str}
    (h : targetPath root rel = targetPath root rel') : rel = rel' := by
  unfold targetPath at h
  have h2 := List.append_cancel_left h
  exact (List.cons.inj h2).2

theorem backupFilePath_eq_assoc (rc : RestoreCtx) (rel : Str) :
    backupFilePath rc rel
      = backupDir rc ++ '/' :: 'b' :: ("efore".data ++ '/' :: rel) := by
  show backupDir rc ++ "/before".data ++ '/' :: rel = _
  have h : "/before".data = '/' :: 'b' :: "efore".data := rfl
  rw [h]
  simp [List.append_assoc]

theorem manifestPath_eq_assoc (rc : RestoreCtx) :
    manifestPath rc = backupDir rc ++ '/' :: 'm' :: "anifest.json".data := by
  show backupDir rc ++ "/manifest.json".data = _
  rfl

theorem backupDir_prefix_backupFile (rc : RestoreCtx) (rel : Str) :
    backupDir rc <+: backupFilePath rc rel := by
  rw [backupFilePath_eq_assoc]
  exact List.prefix_append _ _

theorem backupDir_prefix_manifest (rc : RestoreCtx) :
    backupDir rc <+: manifestPath rc := by
  rw [manifestPath_eq_assoc]
  exact List.prefix_append _ _

theorem prRoot_prefix_backupFile (rc : RestoreCtx) (rel : Str) :
    rc.root ++ prRoot <+: backupFilePath rc rel :=
  (prRoot_prefix_backupDir rc).trans (backupDir_prefix_backupFile rc rel)

theorem prRoot_prefix_manifest (rc : RestoreCtx) :
    rc.root ++ prRoot <+: manifestPath rc :=
  (prRoot_prefix_backupDir rc).trans (backupDir_prefix_manifest rc)

theorem manifest_ne_backupFile (rc : RestoreCtx) (rel : Str) :
    manifestPath rc ≠ backupFilePath rc rel := by
  rw [manifestPath_eq_assoc, backupFilePath_eq_assoc]
  exact ne_of_not_pref (not_prefix_diverge2 _ '/' 'm' 'b' _ _ (by decide))

theorem backupFilePath_inj (rc : RestoreCtx) {rel rel' : Str}
    (h : backupFilePath rc rel = backupFilePath rc rel') : rel = rel' := by
  rw [backupFilePath_eq_assoc, backupFilePath_eq_assoc] at h
  have h2 := List.append_cancel_left h
  have h3 := (List.cons.inj h2).2
  have h4 := (List.cons.inj h3).2
  have h5 := List.append_cancel_left h4
  exact (List.cons.inj h5).2

theorem not_backupDir_prefix_of_snapsDir_prefix (rc : RestoreCtx) (evId : Str)
    {q : Str} (h : snapsDir rc.root evId <+: q) : ¬ backupDir rc <+: q := by
  intro hb
  obtain ⟨t1, ht1⟩ := h
  obtain ⟨t2, ht2⟩ := hb
  rw [← ht1] at ht2
  rw [snapsDir_decomp] at ht2
  rw [backupDir_decomp] at ht2
  simp only [List.append_assoc, List.cons_append] at ht2
  have h2 := List.append_cancel_left (List.append_cancel_left ht2)
  exact absurd (List.cons.inj h2).1 (by decide)

theorem targetsOutside_spec {root : Str} {diffs : List Str}
    (h : targetsOutside root diffs = true) :
    ∀ p ∈ diffs, ¬ ((root ++ prRoot) <+: targetPath root (normPath p)) := by
  intro p hp
  have h2 := (List.all_eq_true.mp h) p hp
  simp only [Bool.not_eq_true'] at h2
  rw [← List.isPrefixOf_iff_prefix]
  simp [h2]

theorem entriesOutside_spec {root : Str} {entries : List DiffEntry}
    (h : entriesOutside root entries = true) :
    ∀ d ∈ entries, ¬ ((root ++ prRoot) <+: targetPath root d.path) := by
  intro d hd
  have h2 := (List.all_eq_true.mp h) d hd
  simp only [Bool.not_eq_true'] at h2
  rw [← List.isPrefixOf_iff_prefix]
  simp [h2]

/-! ### Generic characterizations of the per-file mutation loops

All three mutation loops (`applyStepMain`, `applyStep2`, `undoStep`) fold a
step over a list where each iteration either leaves the file system alone
or updates exactly its own target path, with a value determined by the
state the loop started from.  The following lemmas characterize such
folds. -/

theorem foldl_frame {α : Type} (step : FS × Counts → α → FS × Counts)
    (tgt : α → Str) (l : List α)
    (hstep : ∀ a ∈ l, ∀ fs cnt q, q ≠ tgt a → (step (fs, cnt) a).1 q = fs q) :
    ∀ fs cnt q, (∀ a ∈ l, q ≠ tgt a) → (l.foldl step (fs, cnt)).1 q = fs q := by
  induction l with
  | nil => intro fs cnt q _; rfl
  | cons b rest ih =>
    intro fs cnt q hq
    have hb : (step (fs, cnt) b).1 q = fs q :=
      hstep b (by simp) fs cnt q (hq b (by simp))
    have hrest := ih (fun a ha => hstep a (by simp [ha]))
      (step (fs, cnt) b).1 (step (fs, cnt) b).2 q (fun a ha => hq a (by simp [ha]))
    rw [Prod.mk.eta] at hrest
    calc (List.foldl step (fs, cnt) (b :: rest)).1 q
        = (List.foldl step (step (fs, cnt) b) rest).1 q := by rw [List.foldl_cons]
      _ = (step (fs, cnt) b).1 q := hrest
      _ = fs q := hb

theorem foldl_value {α : Type} (step : FS × Counts → α → FS × Counts)
    (tgt : α → Str) (eff : α → Option (Option Str)) (T : Str → Prop) (fs0 : FS)
    (l : List α)
    (hstep : ∀ a ∈ l, ∀ fs cnt, agreeOutside T fs0 fs →
      (step (fs, cnt) a).1 = updOpt fs (tgt a) (eff a))
    (htgt : ∀ a ∈ l, T (tgt a)) :
    ∀ fs cnt, agreeOutside T fs0 fs →
      agreeOutside T fs0 (l.foldl step (fs, cnt)).1 ∧
      (∀ q, (∀ a ∈ l, tgt a ≠ q) → (l.foldl step (fs, cnt)).1 q = fs q) ∧
      (∀ a ∈ l, ∀ v, (∀ b ∈ l, tgt b = tgt a → eff b = some v) →
        (l.foldl step (fs, cnt)).1 (tgt a) = v) := by
  induction l with
  | nil =>
    intro fs cnt hagree
    refine ⟨hagree, fun q _ => rfl, fun a ha => absurd ha (by simp)⟩
  | cons b rest ih =>
    intro fs cnt hagree
    have hb1 : (step (fs, cnt) b).1 = updOpt fs (tgt b) (eff b) :=
      hstep b (by simp) fs cnt hagree
    have hup : ∀ q, q ≠ tgt b → updOpt fs (tgt b) (eff b) q = fs q := by
      intro q hq
      cases h : eff b with
      | none => rfl
      | some v => simp [updOpt, fsUpd_ne _ _ _ hq]
    have hagree1 : agreeOutside T fs0 (updOpt fs (tgt b) (eff b)) := by
      intro q hq
      have hne : q ≠ tgt b := fun he => hq (he ▸ htgt b (by simp))
      rw [hup q hne]
      exact hagree q hq
    have ihr := ih (fun a ha => hstep a (by simp [ha])) (fun a ha => htgt a (by simp [ha]))
      (updOpt fs (tgt b) (eff b)) (step (fs, cnt) b).2 hagree1
    have hfold : List.foldl step (fs, cnt) (b :: rest)
        = List.foldl step (updOpt fs (tgt b) (eff b), (step (fs, cnt) b).2) rest := by
      rw [List.foldl_cons, ← hb1, Prod.mk.eta]
    refine ⟨?_, ?_, ?_⟩
    · rw [hfold]; exact ihr.1
    · intro q hq
      rw [hfold, ihr.2.1 q (fun a ha => hq a (by simp [ha]))]
      exact hup q (Ne.symm (hq b (by simp)))
    · intro a ha v hv
      rw [hfold]
      by_cases hex : ∃ b' ∈ rest, tgt b' = tgt a
      · obtain ⟨b', hb', htb'⟩ := hex
        have := ihr.2.2 b' hb' v (fun c hc hct =>
          hv c (by simp [hc]) (by rw [hct, htb']))
        rw [htb'] at this
        exact this
      · have ha0 : a = b := by
          rcases List.mem_cons.mp ha with h | h
          · exact h
          · exact absurd ⟨a, h, rfl⟩ hex
        subst ha0
        have heffb : eff a = some v := hv a (by simp) rfl
        have : (List.foldl step (updOpt fs (tgt a) (eff a), (step (fs, cnt) a).2) rest).1 (tgt a)
            = updOpt fs (tgt a) (eff a) (tgt a) :=
          ihr.2.1 (tgt a) (fun c hc => fun he => hex ⟨c, hc, he⟩)
        rw [this, heffb]
        simp [updOpt, fsUpd_same]

theorem applyStepMain_frame (rc : RestoreCtx) (d : DiffEntry) :
    ∀ fs cnt q, q ≠ targetPath rc.root d.path →
      (applyStepMain rc (fs, cnt) d).1 q = fs q := by
  intro fs cnt q hq
  simp only [applyStepMain]
  split
  · split <;> simp [fsUpd_ne _ _ _ hq]
  · split
    · simp
    · split
      · split <;> simp [fsUpd_ne _ _ _ hq]
      · simp

theorem applyStep2_updOpt (root : Str) (side : Side) (T : Str → Prop) (fs0 : FS)
    (d : DiffEntry)
    (hloc : ∀ loc, sideLoc side d = some loc → ¬ T loc.fsPath) :
    ∀ fs cnt, agreeOutside T fs0 fs →
      (applyStep2 root side (fs, cnt) d).1
        = updOpt fs (targetPath root d.path) (eff2 side fs0 d) := by
  intro fs cnt hagree
  have hread : ∀ o : Option Loc, (∀ loc, o = some loc → ¬ T loc.fsPath) →
      readBytesFlexible fs o = readBytesFlexible fs0 o := by
    intro o ho
    cases o with
    | none => rfl
    | some loc =>
      show fs loc.fsPath = fs0 loc.fsPath
      exact hagree loc.fsPath (ho loc rfl)
  cases side with
  | after =>
    simp only [applyStep2, eff2]
    split
    · cases htgt : fs (targetPath root d.path) with
      | some b => simp [updOpt]
      | none => simp [updOpt, fsUpd_none_self fs _ htgt]
    · rw [hread d.right (fun loc h => hloc loc (by simpa [sideLoc] using h))]
      cases hr : readBytesFlexible fs0 d.right with
      | none => simp [updOpt]
      | some b => simp [updOpt]
  | before =>
    simp only [applyStep2, eff2]
    split
    · cases htgt : fs (targetPath root d.path) with
      | some b => simp [updOpt]
      | none => simp [updOpt, fsUpd_none_self fs _ htgt]
    · rw [hread d.left (fun loc h => hloc loc (by simpa [sideLoc] using h))]
      cases hr : readBytesFlexible fs0 d.left with
      | none => simp [updOpt]
      | some b => simp [updOpt]

theorem undoStep_updOpt (rc : RestoreCtx) (T : Str → Prop) (fs0 : FS)
    (e : BackupEntry) (hbf : ¬ T (backupFilePath rc e.path)) :
    ∀ fs cnt, agreeOutside T fs0 fs →
      (undoStep rc (fs, cnt) e).1
        = updOpt fs (targetPath rc.root e.path) (effUndo rc fs0 e) := by
  intro fs cnt hagree
  by_cases he : e.existed = true
  · simp only [undoStep, effUndo, he, if_true]
    rw [hagree (backupFilePath rc e.path) hbf]
    cases hb : fs0 (backupFilePath rc e.path) with
    | none => simp [updOpt]
    | some b => simp [updOpt]
  · rw [Bool.not_eq_true] at he
    simp only [undoStep, effUndo, he, Bool.false_eq_true, if_false]
    cases htgt : fs (targetPath rc.root e.path) with
    | some b => simp [updOpt]
    | none => simp [updOpt, fsUpd_none_self fs _ htgt]

theorem backupPhase_error_frame (rc : RestoreCtx) :
    ∀ (entries : List DiffEntry) (fs : FS) (acc : List BackupEntry) (fsE : FS),
      backupPhase rc entries fs acc = .error fsE →
      ∀ q, (∀ d ∈ entries, q ≠ backupFilePath rc d.path) → fsE q = fs q := by
  intro entries
  induction entries with
  | nil => intro fs acc fsE h; simp [backupPhase] at h
  | cons d0 rest ih =>
    intro fs acc fsE h q hq
    simp only [backupPhase] at h
    cases htgt : fs (targetPath rc.root d0.path) with
    | some buf =>
      rw [htgt] at h
      by_cases hio : rc.ioFail (targetPath rc.root d0.path) = true
      · simp only [hio, if_true] at h
        cases h
        rfl
      · rw [Bool.not_eq_true] at hio
        simp only [hio, Bool.false_eq_true, if_false] at h
        have := ih _ _ _ h q (fun d hd => hq d (by simp [hd]))
        rw [this, fsUpd_ne _ _ _ (hq d0 (by simp))]
    | none =>
      rw [htgt] at h
      exact ih _ _ _ h q (fun d hd => hq d (by simp [hd]))

theorem backupPhase_ok_spec (rc : RestoreCtx) :
    ∀ (entries : List DiffEntry) (fs : FS) (acc : List BackupEntry)
      (fs1 : FS) (m : List BackupEntry),
      backupPhase rc entries fs acc = .ok (fs1, m) →
      (∀ d ∈ entries, ¬ ((rc.root ++ prRoot) <+: targetPath rc.root d.path)) →
      (∀ q, (∀ d ∈ entries, q ≠ backupFilePath rc d.path) → fs1 q = fs q) ∧
      m = acc ++ entries.map
        (fun d => ⟨d.path, (fs (targetPath rc.root d.path)).isSome⟩) ∧
      (∀ d ∈ entries, ∀ buf, fs (targetPath rc.root d.path) = some buf →
        fs1 (backupFilePath rc d.path) = some buf) := by
  intro entries
  induction entries with
  | nil =>
    intro fs acc fs1 m h _
    simp only [backupPhase] at h
    cases h
    exact ⟨fun q _ => rfl, by simp, fun d hd => absurd hd (by simp)⟩
  | cons d0 rest ih =>
    intro fs acc fs1 m h hT
    have htgt_ne_bfp : ∀ (d' : DiffEntry), d' ∈ d0 :: rest →
        ∀ (rel : Str), targetPath rc.root d'.path ≠ backupFilePath rc rel := by
      intro d' hd' rel
      exact Ne.symm (ne_of_pref_not_pref (prRoot_prefix_backupFile rc rel) (hT d' hd'))
    simp only [backupPhase] at h
    cases htgt : fs (targetPath rc.root d0.path) with
    | some buf =>
      rw [htgt] at h
      by_cases hio : rc.ioFail (targetPath rc.root d0.path) = true
      · simp only [hio, if_true] at h
        cases h
      · rw [Bool.not_eq_true] at hio
        simp only [hio, Bool.false_eq_true, if_false] at h
        set fsW := fsUpd fs (backupFilePath rc d0.path) (some buf) with hfsW
        have hstable : ∀ d' ∈ rest, fsW (targetPath rc.root d'.path)
            = fs (targetPath rc.root d'.path) := by
          intro d' hd'
          exact fsUpd_ne _ _ _ (htgt_ne_bfp d' (by simp [hd']) d0.path)
        obtain ⟨hframe, hm, hcopy⟩ := ih fsW _ _ _ h (fun d hd => hT d (by simp [hd]))
        refine ⟨?_, ?_, ?_⟩
        · intro q hq
          rw [hframe q (fun d hd => hq d (by simp [hd]))]
          exact fsUpd_ne _ _ _ (hq d0 (by simp))
        · rw [hm]
          have hmap : rest.map
              (fun d => (⟨d.path, (fsW (targetPath rc.root d.path)).isSome⟩ : BackupEntry))
              = rest.map
              (fun d => (⟨d.path, (fs (targetPath rc.root d.path)).isSome⟩ : BackupEntry)) := by
            apply List.map_congr_left
            intro d hd
            rw [hstable d hd]
          rw [hmap]
          simp [htgt]
        · intro d hd buf' hbuf'
          rcases List.mem_cons.mp hd with hd0 | hdr
          · subst hd0
            by_cases hex : ∃ d' ∈ rest, d'.path = d.path
            · obtain ⟨d', hd', hpath⟩ := hex
              have := hcopy d' hd' buf' (by rw [hstable d' hd', hpath]; exact hbuf')
              rw [hpath] at this
              exact this
            · have hfr : fs1 (backupFilePath rc d.path) = fsW (backupFilePath rc d.path) := by
                apply hframe
                intro d' hd' he
                exact hex ⟨d', hd', (backupFilePath_inj rc he).symm⟩
              rw [hfr, hfsW, fsUpd_same]
              rw [htgt] at hbuf'
              exact congrArg some (Option.some.inj hbuf').symm ▸ rfl
          · exact hcopy d hdr buf' (by rw [hstable d hdr]; exact hbuf')
    | none =>
      rw [htgt] at h
      obtain ⟨hframe, hm, hcopy⟩ := ih fs _ _ _ h (fun d hd => hT d (by simp [hd]))
      refine ⟨?_, ?_, ?_⟩
      · intro q hq
        exact hframe q (fun d hd => hq d (by simp [hd]))
      · rw [hm]
        simp [htgt]
      · intro d hd buf' hbuf'
        rcases List.mem_cons.mp hd with hd0 | hdr
        · subst hd0
          rw [htgt] at hbuf'
          cases hbuf'
        · exact hcopy d hdr buf' hbuf'

theorem snapshotFile_eq (c : BuildCtx) (hW : c.failWrite = alwaysFalse)
    (fs : FS) (p : Str)
    (hT : ¬ ((c.root ++ prRoot) <+: targetPath c.root (normPath p))) :
    snapshotFile c fs p = .ok
      (fsUpd (fsUpd fs (leftSnapPath c.root c.evId (normPath p))
          (some ((leftTextOf c (normPath p)).getD [])))
        (rightSnapPath c.root c.evId (normPath p))
        (some ((fs (targetPath c.root (normPath p))).getD [])),
       classify c fs (normPath p)) := by
  have hlt : targetPath c.root (normPath p) ≠ leftSnapPath c.root c.evId (normPath p) :=
    Ne.symm (ne_of_pref_not_pref (prRoot_prefix_lsnap c.root c.evId (normPath p)) hT)
  simp only [snapshotFile, hW, alwaysFalse, Bool.false_eq_true, if_false]
  rw [fsUpd_ne _ _ _ hlt]
  cases htgt : fs (targetPath c.root (normPath p)) with
  | some buf => simp [classify, htgt]
  | none => simp [classify, htgt]

theorem buildLoop_spec (c : BuildCtx) (hW : c.failWrite = alwaysFalse) :
    ∀ (diffs : List Str) (fs : FS) (ops : Str → Option Op),
      (∀ p ∈ diffs, ¬ ((c.root ++ prRoot) <+: targetPath c.root (normPath p))) →
      ∃ fs' ops', buildLoop c diffs fs ops = .ok (fs', ops') ∧
        (∀ q, (∀ p ∈ diffs, q ≠ leftSnapPath c.root c.evId (normPath p) ∧
            q ≠ rightSnapPath c.root c.evId (normPath p)) → fs' q = fs q) ∧
        (∀ p ∈ diffs, ops' (normPath p) = some (classify c fs (normPath p))) ∧
        (∀ rel, (∀ p ∈ diffs, normPath p ≠ rel) → ops' rel = ops rel) ∧
        (∀ p ∈ diffs,
          fs' (leftSnapPath c.root c.evId (normPath p))
            = some ((leftTextOf c (normPath p)).getD []) ∧
          fs' (rightSnapPath c.root c.evId (normPath p))
            = some ((fs (targetPath c.root (normPath p))).getD [])) := by
  intro diffs
  induction diffs with
  | nil =>
    intro fs ops _
    exact ⟨fs, ops, rfl, fun q _ => rfl, fun p hp => absurd hp (by simp),
      fun rel _ => rfl, fun p hp => absurd hp (by simp)⟩
  | cons p0 rest ih =>
    intro fs ops hT
    have heq := snapshotFile_eq c hW fs p0 (hT p0 (by simp))
    have hfs2_tgt : ∀ p' : Str,
        ¬ ((c.root ++ prRoot) <+: targetPath c.root (normPath p')) →
        (fsUpd (fsUpd fs (leftSnapPath c.root c.evId (normPath p0))
            (some ((leftTextOf c (normPath p0)).getD [])))
          (rightSnapPath c.root c.evId (normPath p0))
          (some ((fs (targetPath c.root (normPath p0))).getD [])))
          (targetPath c.root (normPath p')) = fs (targetPath c.root (normPath p')) := by
      intro p' hp'
      rw [fsUpd_ne _ _ _
        (Ne.symm (ne_of_pref_not_pref (prRoot_prefix_rsnap c.root c.evId _) hp'))]
      rw [fsUpd_ne _ _ _
        (Ne.symm (ne_of_pref_not_pref (prRoot_prefix_lsnap c.root c.evId _) hp'))]
    obtain ⟨fs', ops', heq', hframe', hopsMem', hopsOther', hcontent'⟩ :=
      ih (fsUpd (fsUpd fs (leftSnapPath c.root c.evId (normPath p0))
            (some ((leftTextOf c (normPath p0)).getD [])))
          (rightSnapPath c.root c.evId (normPath p0))
          (some ((fs (targetPath c.root (normPath p0))).getD [])))
        (fun q => if q = normPath p0 then some (classify c fs (normPath p0)) else ops q)
        (fun p hp => hT p (by simp [hp]))
    have hclassify_stable : ∀ p' ∈ rest,
        classify c (fsUpd (fsUpd fs (leftSnapPath c.root c.evId (normPath p0))
            (some ((leftTextOf c (normPath p0)).getD [])))
          (rightSnapPath c.root c.evId (normPath p0))
          (some ((fs (targetPath c.root (normPath p0))).getD []))) (normPath p')
          = classify c fs (normPath p') := by
      intro p' hp'
      unfold classify
      rw [hfs2_tgt p' (hT p' (by simp [hp']))]
    refine ⟨fs', ops', ?_, ?_, ?_, ?_, ?_⟩
    · simp only [buildLoop, heq]
      exact heq'
    · intro q hq
      rw [hframe' q (fun p hp => hq p (by simp [hp]))]
      rw [fsUpd_ne _ _ _ (hq p0 (by simp)).2, fsUpd_ne _ _ _ (hq p0 (by simp)).1]
    · intro p hp
      rcases List.mem_cons.mp hp with hp0 | hpr
      · subst hp0
        by_cases hex : ∃ p' ∈ rest, normPath p' = normPath p
        · obtain ⟨p', hp', hrel⟩ := hex
          have h1 := hopsMem' p' hp'
          rw [hclassify_stable p' hp'] at h1
          rw [hrel] at h1
          exact h1
        · have h1 := hopsOther' (normPath p)
            (fun p' hp' he => hex ⟨p', hp', he⟩)
          rw [h1]
          simp
      · have h1 := hopsMem' p hpr
        rw [hclassify_stable p hpr] at h1
        exact h1
    · intro rel hrel
      have h1 := hopsOther' rel (fun p hp => hrel p (by simp [hp]))
      rw [h1]
      have : ¬ (rel = normPath p0) := fun he => hrel p0 (by simp) he.symm
      simp [this]
    · intro p hp
      rcases List.mem_cons.mp hp with hp0 | hpr
      · subst hp0
        by_cases hex : ∃ p' ∈ rest, normPath p' = normPath p
        · obtain ⟨p', hp', hrel⟩ := hex
          have h1 := hcontent' p' hp'
          rw [hrel] at h1
          refine ⟨h1.1, ?_⟩
          rw [h1.2]
          rw [hfs2_tgt p (hT p (by simp))]
        · constructor
          · rw [hframe' _ (fun p' hp' => ⟨fun he => hex ⟨p', hp', (lsnap_inj _ _ he).symm⟩,
              lsnap_ne_rsnap c.root c.evId (normPath p) (normPath p')⟩)]
            rw [fsUpd_ne _ _ _ (lsnap_ne_rsnap c.root c.evId (normPath p) (normPath p))]
            rw [fsUpd_same]
          · rw [hframe' _ (fun p' hp' => ⟨(lsnap_ne_rsnap c.root c.evId (normPath p') (normPath p)).symm,
              fun he => hex ⟨p', hp', (rsnap_inj _ _ he).symm⟩⟩)]
            rw [fsUpd_same]
      · have h1 := hcontent' p hpr
        refine ⟨h1.1, ?_⟩
        rw [h1.2, hfs2_tgt p (hT p (by simp [hpr]))]

theorem buildEvent_spec (c : BuildCtx) (diffs : List Str) (fs : FS)
    (hW : c.failWrite = alwaysFalse) (hT : targetsOutside c.root diffs = true) :
    ∃ res : BuildResult, buildEvent c diffs fs = .ok res ∧
      res.filesChanged = diffs ∧
      res.entries = diffs.map (fun p =>
        (⟨normPath p, some ⟨"file".data, leftSnapPath c.root c.evId (normPath p)⟩,
          some ⟨"file".data, rightSnapPath c.root c.evId (normPath p)⟩,
          some (classify c fs (normPath p))⟩ : DiffEntry)) ∧
      (∀ q, ¬ (snapsDir c.root c.evId <+: q) → res.fs q = fs q) ∧
      (∀ p ∈ diffs,
        res.fs (leftSnapPath c.root c.evId (normPath p))
          = some ((leftTextOf c (normPath p)).getD []) ∧
        res.fs (rightSnapPath c.root c.evId (normPath p))
          = some ((fs (targetPath c.root (normPath p))).getD [])) := by
  obtain ⟨fs', ops', heq, hframe, hopsMem, _, hcontent⟩ :=
    buildLoop_spec c hW diffs fs (fun _ => none) (targetsOutside_spec hT)
  refine ⟨⟨fs', diffs, mkDiffUris c diffs ops'⟩, ?_, rfl, ?_, ?_, ?_⟩
  · simp only [buildEvent, heq]
  · show mkDiffUris c diffs ops' = _
    unfold mkDiffUris
    apply List.map_congr_left
    intro p hp
    show (⟨normPath p, _, _, ops' (normPath p)⟩ : DiffEntry) = _
    rw [hopsMem p hp]
  · intro q hq
    apply hframe
    intro p hp
    exact ⟨Ne.symm (ne_of_pref_not_pref (snapsDir_prefix_lsnap c.root c.evId _) hq),
      Ne.symm (ne_of_pref_not_pref (snapsDir_prefix_rsnap c.root c.evId _) hq)⟩
  · exact hcontent

theorem backupPhase_ok_total (rc : RestoreCtx) (hIF : rc.ioFail = alwaysFalse) :
    ∀ (entries : List DiffEntry) (fs : FS) (acc : List BackupEntry),
      ∃ fs1 m, backupPhase rc entries fs acc = .ok (fs1, m) := by
  intro entries
  induction entries with
  | nil => intro fs acc; exact ⟨fs, acc, rfl⟩
  | cons d0 rest ih =>
    intro fs acc
    simp only [backupPhase, hIF, alwaysFalse, Bool.false_eq_true, if_false]
    cases htgt : fs (targetPath rc.root d0.path) with
    | some buf => exact ih _ _
    | none => exact ih _ _

/-! ### Splitting and joining log lines -/

theorem jsSplit_ne_nil (sep : Char) : ∀ s : Str, jsSplit sep s ≠ [] := by
  intro s
  cases s with
  | nil => simp [jsSplit]
  | cons c rest =>
    simp only [jsSplit]
    cases jsSplit sep rest with
    | nil => simp
    | cons h t =>
      by_cases hc : c = sep <;> simp [hc]

theorem jsSplit_cons_sep (sep : Char) (s : Str) :
    jsSplit sep (sep :: s) = [] :: jsSplit sep s := by
  simp only [jsSplit]
  cases h : jsSplit sep s with
  | nil => exact absurd h (jsSplit_ne_nil sep s)
  | cons a t => simp

theorem jsSplit_cons_ne (sep c : Char) (s : Str) (hc : c ≠ sep) :
    jsSplit sep (c :: s) = glue [c] (jsSplit sep s) := by
  simp only [jsSplit]
  cases h : jsSplit sep s with
  | nil => exact absurd h (jsSplit_ne_nil sep s)
  | cons a t => simp [hc, glue]

theorem glueSplit_ne_nil (l₁ l₂ : List Str) (h₂ : l₂ ≠ []) :
    glueSplit l₁ l₂ ≠ [] := by
  match l₁ with
  | [] => simpa [glueSplit] using h₂
  | [a] =>
    simp only [glueSplit]
    cases l₂ with
    | nil => exact absurd rfl h₂
    | cons x t => simp [glue]
  | a :: b :: t => simp [glueSplit]

theorem jsSplit_append (sep : Char) :
    ∀ xs ys : Str, jsSplit sep (xs ++ ys) = glueSplit (jsSplit sep xs) (jsSplit sep ys) := by
  intro xs
  induction xs with
  | nil =>
    intro ys
    simp only [List.nil_append, jsSplit, glueSplit]
    cases h : jsSplit sep ys with
    | nil => exact absurd h (jsSplit_ne_nil sep ys)
    | cons a t => simp [glue]
  | cons c xs' ih =>
    intro ys
    show jsSplit sep (c :: (xs' ++ ys)) = _
    by_cases hc : c = sep
    · rw [hc, jsSplit_cons_sep, jsSplit_cons_sep, ih]
      cases h1 : jsSplit sep xs' with
      | nil => exact absurd h1 (jsSplit_ne_nil sep xs')
      | cons a t => simp [glueSplit]
    · rw [jsSplit_cons_ne sep c _ hc, jsSplit_cons_ne sep c _ hc, ih]
      cases h1 : jsSplit sep xs' with
      | nil => exact absurd h1 (jsSplit_ne_nil sep xs')
      | cons a t =>
        cases t with
        | nil =>
          simp only [glueSplit, glue]
          cases h2 : jsSplit sep ys with
          | nil => exact absurd h2 (jsSplit_ne_nil sep ys)
          | cons x u => simp [glue, glueSplit, List.append_assoc]
        | cons b t' =>
          simp [glueSplit, glue]

theorem jsSplit_no_sep (sep : Char) : ∀ L : Str, sep ∉ L → jsSplit sep L = [L] := by
  intro L
  induction L with
  | nil => intro _; rfl
  | cons c rest ih =>
    intro h
    have hc : c ≠ sep := fun he => h (he ▸ List.mem_cons_self c rest)
    rw [jsSplit_cons_ne sep c rest hc, ih (fun hm => h (List.mem_cons_of_mem c hm))]
    simp [glue]

theorem mem_jsSplit_not_sep (sep : Char) :
    ∀ (s : Str) (l : Str), l ∈ jsSplit sep s → sep ∉ l := by
  intro s
  induction s with
  | nil =>
    intro l hl
    simp only [jsSplit, List.mem_singleton] at hl
    subst hl
    simp
  | cons c rest ih =>
    intro l hl
    by_cases hc : c = sep
    · subst hc
      rw [jsSplit_cons_sep] at hl
      rcases List.mem_cons.mp hl with h | h
      · subst h; simp
      · exact ih l h
    · rw [jsSplit_cons_ne sep c rest hc] at hl
      cases hsp : jsSplit sep rest with
      | nil => exact absurd hsp (jsSplit_ne_nil sep rest)
      | cons a t =>
        rw [hsp] at hl
        simp only [glue] at hl
        rcases List.mem_cons.mp hl with h | h
        · subst h
          intro hm
          rcases List.mem_cons.mp hm with h' | h'
          · exact hc h'.symm
          · exact ih a (by simp [hsp]) h'
        · exact ih l (by simp [hsp, h])

theorem glueSplit_cons_append (l₁ : List Str) (x : Str) (rest : List Str) :
    glueSplit l₁ (x :: rest) = glueSplit l₁ [x] ++ rest := by
  induction l₁ with
  | nil => simp [glueSplit]
  | cons a t ih =>
    cases t with
    | nil =>
      simp [glueSplit, glue]
    | cons b t' =>
      simp only [glueSplit]
      rw [List.cons_append, ih]

theorem jsSplit_newline : jsSplit '\n' ['\n'] = [[], []] := by decide

theorem jsSplit_append_newline (a : Str) (ha : '\n' ∉ a) :
    jsSplit '\n' (a ++ ['\n']) = [a, []] := by
  rw [jsSplit_append, jsSplit_no_sep '\n' a ha, jsSplit_newline]
  simp [glueSplit, glue]

theorem jsLines_append_line (O L : Str) (hend : endsWithNewline O)
    (hsep : '\n' ∉ L) (hL : L ≠ []) :
    jsLines (O ++ L ++ ['\n']) = jsLines O ++ [L] := by
  rcases hend with h0 | ⟨O', hO'⟩
  · subst h0
    simp only [List.nil_append]
    rw [jsLines, jsSplit_append_newline L hsep]
    simp [jsLines, jsSplit, hL]
  · subst hO'
    have hassoc : O' ++ ['\n'] ++ L ++ ['\n'] = O' ++ ('\n' :: (L ++ ['\n'])) := by
      simp [List.append_assoc]
    rw [hassoc]
    rw [jsLines, jsSplit_append, jsSplit_cons_sep, jsSplit_append_newline L hsep]
    rw [glueSplit_cons_append]
    have hO : jsLines (O' ++ ['\n']) = (glueSplit (jsSplit '\n' O') [[]]).filter
        (fun l => !l.isEmpty) := by
      rw [jsLines, jsSplit_append, jsSplit_newline, glueSplit_cons_append]
      simp
    rw [List.filter_append, hO]
    simp [hL]

theorem jsLines_join (ls : List Str) (h : ∀ x ∈ ls, x ≠ [] ∧ '\n' ∉ x) :
    jsLines (jsJoin '\n' ls ++ ['\n']) = ls := by
  induction ls with
  | nil => decide
  | cons a t ih =>
    cases t with
    | nil =>
      show jsLines (a ++ ['\n']) = [a]
      rw [jsLines, jsSplit_append_newline a (h a (by simp)).2]
      simp [(h a (by simp)).1]
    | cons b t' =>
      have hassoc : jsJoin '\n' (a :: b :: t') ++ ['\n']
          = a ++ ('\n' :: (jsJoin '\n' (b :: t') ++ ['\n'])) := by
        show (a ++ '\n' :: jsJoin '\n' (b :: t')) ++ ['\n'] = _
        simp [List.append_assoc]
      rw [hassoc, jsLines, jsSplit_append,
        jsSplit_no_sep '\n' a (h a (by simp)).2, jsSplit_cons_sep]
      have hglue : glueSplit [a] ([] :: jsSplit '\n' (jsJoin '\n' (b :: t') ++ ['\n']))
          = a :: jsSplit '\n' (jsJoin '\n' (b :: t') ++ ['\n']) := by
        simp [glueSplit, glue]
      rw [hglue]
      have hfilter : (a :: jsSplit '\n' (jsJoin '\n' (b :: t') ++ ['\n'])).filter
          (fun l => !l.isEmpty)
          = a :: (jsSplit '\n' (jsJoin '\n' (b :: t') ++ ['\n'])).filter
            (fun l => !l.isEmpty) := by
        simp [(h a (by simp)).1]
      rw [hfilter]
      have := ih (fun x hx => h x (by simp [hx]))
      rw [jsLines] at this
      rw [this]

theorem mapParse_eq_none {α : Type} (parse : Str → Option α) :
    ∀ (ls : List Str) (l : Str), l ∈ ls → parse l = none →
      mapParse parse ls = none := by
  intro ls
  induction ls with
  | nil => intro l hl; simp at hl
  | cons a t ih =>
    intro l hl hp
    rcases List.mem_cons.mp hl with h | h
    · subst h
      simp [mapParse, hp]
    · simp only [mapParse]
      rw [ih l h hp]
      cases parse a <;> rfl

/-! ### The claims -/

/-- C3: for every event and every file entry in it, restoring side `after`
deletes the working-tree file exactly when the entry's op is `deleted`
(even if a file with that name currently exists) and otherwise writes the
after-snapshot content, while restoring side `before` deletes exactly when
the op is `added` and otherwise writes the before-snapshot content
(whenever that snapshot is readable); an entry whose op does not call for
removal never deletes an existing file. -/
theorem C3_deletion_symmetry (root : Str) (fs : FS) (cnt : Counts) (d : DiffEntry) :
    (d.op = some Op.deleted →
      (applyStep2 root Side.after (fs, cnt) d).1 (targetPath root d.path) = none) ∧
    (d.op ≠ some Op.deleted → ∀ b, readBytesFlexible fs d.right = some b →
      (applyStep2 root Side.after (fs, cnt) d).1 (targetPath root d.path) = some b) ∧
    (d.op ≠ some Op.deleted → ∀ b, fs (targetPath root d.path) = some b →
      (applyStep2 root Side.after (fs, cnt) d).1 (targetPath root d.path) ≠ none) ∧
    (d.op = some Op.added →
      (applyStep2 root Side.before (fs, cnt) d).1 (targetPath root d.path) = none) ∧
    (d.op ≠ some Op.added → ∀ b, readBytesFlexible fs d.left = some b →
      (applyStep2 root Side.before (fs, cnt) d).1 (targetPath root d.path) = some b) ∧
    (d.op ≠ some Op.added → ∀ b, fs (targetPath root d.path) = some b →
      (applyStep2 root Side.before (fs, cnt) d).1 (targetPath root d.path) ≠ none) := by
  refine ⟨?_, ?_, ?_, ?_, ?_, ?_⟩
  · intro hop
    cases htgt : fs (targetPath root d.path) with
    | some b => simp [applyStep2, hop, htgt, fsUpd_same]
    | none => simp [applyStep2, hop, htgt]
  · intro hop b hb
    simp [applyStep2, hop, hb, fsUpd_same]
  · intro hop b hb
    cases hr : readBytesFlexible fs d.right with
    | none => simp [applyStep2, hop, hr, hb]
    | some b' => simp [applyStep2, hop, hr, fsUpd_same]
  · intro hop
    cases htgt : fs (targetPath root d.path) with
    | some b => simp [applyStep2, hop, htgt, fsUpd_same]
    | none => simp [applyStep2, hop, htgt]
  · intro hop b hb
    simp [applyStep2, hop, hb, fsUpd_same]
  · intro hop b hb
    cases hr : readBytesFlexible fs d.left with
    | none => simp [applyStep2, hop, hr, hb]
    | some b' => simp [applyStep2, hop, hr, fsUpd_same]

/-- C3 witness: restoring `after` on a deleted entry removes the existing
target; restoring `after` on a modified entry writes the snapshot bytes;
restoring `before` on an added entry removes the target. -/
theorem C3_deletion_symmetry_witness :
    (applyStep2 "/r".data Side.after (fs3ex, czero) d3del).1 ("/r/a".data) = none ∧
    (applyStep2 "/r".data Side.after (fs3ex, czero) d3mod).1 ("/r/a".data)
      = some "s".data ∧
    (applyStep2 "/r".data Side.before (fs3ex, czero) d3add).1 ("/r/a".data) = none := by
  refine ⟨?_, ?_, ?_⟩
  · exact (C3_deletion_symmetry "/r".data fs3ex czero d3del).1 rfl
  · exact (C3_deletion_symmetry "/r".data fs3ex czero d3mod).2.1
      (by decide) ("s".data) (by decide)
  · exact (C3_deletion_symmetry "/r".data fs3ex czero d3add).2.2.2.1 rfl

/-- C6 counterexample: the restore step applies the snapshot location
`/r/.promptreplay/snapshots/Eevil/x` — writing its content to the working
tree and counting it restored — although that location does not resolve
inside event `E`'s own snapshot directory
`/r/.promptreplay/snapshots/E`. -/
theorem C6_counterexample :
    (applyStepMain rc6 (fs6ex, czero) d6).1 ("/r/a".data) = some "h".data ∧
    (applyStepMain rc6 (fs6ex, czero) d6).2.restored = 1 ∧
    ¬ resolvesInsideDir (snapsDir rc6.root rc6.evId) evilLoc.fsPath := by
  refine ⟨by decide, by decide, ?_⟩
  simp only [resolvesInsideDir]
  decide

/-- C6 (amended): during restore, for an entry whose op is not `deleted`,
a snapshot location is applied exactly when it is a `file:`-scheme
location whose path extends the string
`<root>/.promptreplay/snapshots/<eventId>` as a lexical prefix — a check
that also accepts sibling directories whose names extend the event id —
and is readable; a location failing the prefix test is counted as skipped
and causes no working-tree mutation for that file; an entry with op
`deleted` deletes the target without consulting the location. -/
theorem C6_amended_prefix_check (rc : RestoreCtx) (fs : FS) (cnt : Counts)
    (d : DiffEntry) :
    (d.op = some Op.deleted →
      (applyStepMain rc (fs, cnt) d).1 (targetPath rc.root d.path) = none) ∧
    (d.op ≠ some Op.deleted → ∀ loc b, d.right = some loc →
      loc.scheme = "file".data → snapsDir rc.root rc.evId <+: loc.fsPath →
      fs loc.fsPath = some b →
      applyStepMain rc (fs, cnt) d
        = (fsUpd fs (targetPath rc.root d.path) (some b),
           {cnt with restored := cnt.restored + 1})) ∧
    (d.op ≠ some Op.deleted →
      (d.right = none ∨ ∀ loc, d.right = some loc →
        ¬ (loc.scheme = "file".data ∧ snapsDir rc.root rc.evId <+: loc.fsPath)) →
      applyStepMain rc (fs, cnt) d = (fs, {cnt with skipped := cnt.skipped + 1})) := by
  refine ⟨?_, ?_, ?_⟩
  · intro hop
    cases htgt : fs (targetPath rc.root d.path) with
    | some b => simp [applyStepMain, hop, htgt, fsUpd_same]
    | none => simp [applyStepMain, hop, htgt]
  · intro hop loc b hloc hscheme hpre hread
    simp [applyStepMain, hop, hloc, hscheme, hpre, hread]
  · intro hop hfail
    rcases hfail with hnone | hsome
    · simp [applyStepMain, hop, hnone]
    · cases hloc : d.right with
      | none => simp [applyStepMain, hop, hloc]
      | some loc =>
        have := hsome loc hloc
        simp [applyStepMain, hop, hloc, this]

/-- C6 (amended) witness: the sibling-directory location passes the prefix
check and is applied. -/
theorem C6_amended_prefix_check_witness :
    applyStepMain rc6 (fs6ex, czero) d6
      = (fsUpd fs6ex ("/r/a".data) (some "h".data),
         {czero with restored := czero.restored + 1}) := by
  exact (C6_amended_prefix_check rc6 fs6ex czero d6).2.1
    (by decide) evilLoc ("h".data) rfl rfl (by decide) (by decide)

theorem buildLoop_error_of_fail (c : BuildCtx) :
    ∀ diffs : List Str,
      diffs.any (fun p => c.failWrite (leftSnapPath c.root c.evId (normPath p))
        || c.failWrite (rightSnapPath c.root c.evId (normPath p))) = true →
      ∀ (fs : FS) (ops : Str → Option Op),
        ∃ fsE, buildLoop c diffs fs ops = .error fsE := by
  intro diffs
  induction diffs with
  | nil => intro h; simp at h
  | cons p0 rest ih =>
    intro h fs ops
    by_cases h0 : c.failWrite (leftSnapPath c.root c.evId (normPath p0)) = true
    · exact ⟨fs, by simp [buildLoop, snapshotFile, h0]⟩
    · rw [Bool.not_eq_true] at h0
      by_cases h1 : c.failWrite (rightSnapPath c.root c.evId (normPath p0)) = true
      · simp only [buildLoop, snapshotFile, h0, Bool.false_eq_true, if_false]
        cases htgt : fsUpd fs (leftSnapPath c.root c.evId (normPath p0))
            (some ((leftTextOf c (normPath p0)).getD []))
            (targetPath c.root (normPath p0)) with
        | some buf =>
          exact ⟨fsUpd fs (leftSnapPath c.root c.evId (normPath p0))
            (some ((leftTextOf c (normPath p0)).getD [])), by simp [h1]⟩
        | none =>
          exact ⟨fsUpd fs (leftSnapPath c.root c.evId (normPath p0))
            (some ((leftTextOf c (normPath p0)).getD [])), by simp [h1]⟩
      · rw [Bool.not_eq_true] at h1
        have hrest : rest.any (fun p =>
            c.failWrite (leftSnapPath c.root c.evId (normPath p))
              || c.failWrite (rightSnapPath c.root c.evId (normPath p))) = true := by
          rw [List.any_cons] at h
          simpa [h0, h1] using h
        simp only [buildLoop, snapshotFile, h0, h1, Bool.false_eq_true, if_false]
        cases htgt : fsUpd fs (leftSnapPath c.root c.evId (normPath p0))
            (some ((leftTextOf c (normPath p0)).getD []))
            (targetPath c.root (normPath p0)) with
        | some buf =>
          obtain ⟨fsE, he⟩ := ih hrest
            (fsUpd (fsUpd fs (leftSnapPath c.root c.evId (normPath p0))
                (some ((leftTextOf c (normPath p0)).getD [])))
              (rightSnapPath c.root c.evId (normPath p0)) (some buf))
            (fun q => if q = normPath p0 then some (if leftTextOf c (normPath p0) = none
              then Op.added else Op.modified) else ops q)
          exact ⟨fsE, he⟩
        | none =>
          obtain ⟨fsE, he⟩ := ih hrest
            (fsUpd (fsUpd fs (leftSnapPath c.root c.evId (normPath p0))
                (some ((leftTextOf c (normPath p0)).getD [])))
              (rightSnapPath c.root c.evId (normPath p0)) (some ([] : Str)))
            (fun q => if q = normPath p0 then some Op.deleted else ops q)
          exact ⟨fsE, he⟩

/-- C7 counterexample: two changed files where writing `b`'s
before-snapshot fails while every operation on `a` succeeds — the whole
build aborts and nothing is appended to the log, instead of the event
being persisted with the snapshots that succeeded. -/
theorem C7_counterexample :
    (logPromptCore c7c diffs7 fs7ex none 5 ser7).2 = none ∧
    c7c.failWrite (leftSnapPath "/r".data "E".data "a".data) = false ∧
    c7c.failWrite (rightSnapPath "/r".data "E".data "a".data) = false ∧
    c7c.failWrite (leftSnapPath "/r".data "E".data "b".data) = true := by
  exact ⟨by decide, by decide, by decide, by decide⟩

/-- C7 (amended): if writing any file's before- or after-snapshot fails
during event building, the uncaught exception aborts the whole build: no
event is assembled or persisted, and the log is left unchanged (only
`createDirectory` failures are swallowed per file). -/
theorem C7_amended_abort (c : BuildCtx) (diffs : List Str) (fs : FS)
    (log : Option Str) (maxEvents : Nat) (serialize : List DiffEntry → Str)
    (h : diffs.any (fun p => c.failWrite (leftSnapPath c.root c.evId (normPath p))
        || c.failWrite (rightSnapPath c.root c.evId (normPath p))) = true) :
    (logPromptCore c diffs fs log maxEvents serialize).2 = log := by
  obtain ⟨fsE, he⟩ := buildLoop_error_of_fail c diffs h fs (fun _ => none)
  simp [logPromptCore, buildEvent, he]

/-- C7 (amended) witness: the failing build of `diffs7` leaves an existing
log untouched. -/
theorem C7_amended_abort_witness :
    diffs7.any (fun p => c7c.failWrite (leftSnapPath c7c.root c7c.evId (normPath p))
      || c7c.failWrite (rightSnapPath c7c.root c7c.evId (normPath p))) = true ∧
    (logPromptCore c7c diffs7 fs7ex (some "o\n".data) 5 ser7).2 = some "o\n".data := by
  exact ⟨by decide,
    C7_amended_abort c7c diffs7 fs7ex (some "o\n".data) 5 ser7 (by decide)⟩

/-- C8 counterexample: a log holding a well-formed line `A` and a
malformed line `B` makes `readEvents` return the empty list — the torn
line empties the whole read instead of being skipped. -/
theorem C8_counterexample :
    readEvents (some buf8) parse8 = [] ∧
    jsLines buf8 = ["A".data, "B".data] ∧
    parse8 "A".data = some 0 ∧ parse8 "B".data = none := by
  exact ⟨by decide, by decide, by decide, by decide⟩

/-- C8 (amended): `readEvents` parses all lines of the log together under
one exception handler: when every non-empty line parses, the events are
returned in order, but a single line that fails to parse aborts the whole
read, which then returns the empty list. -/
theorem C8_amended_whole_read {α : Type} (buf : Str) (parse : Str → Option α) :
    (∀ l ∈ jsLines buf, parse l = none → readEvents (some buf) parse = []) ∧
    (∀ evs, mapParse parse (jsLines buf) = some evs →
      readEvents (some buf) parse = evs) := by
  constructor
  · intro l hl hp
    simp [readEvents, mapParse_eq_none parse (jsLines buf) l hl hp]
  · intro evs h
    simp [readEvents, h]

/-- C8 (amended) witness: the malformed line `B` of `buf8` empties the
read. -/
theorem C8_amended_whole_read_witness :
    "B".data ∈ jsLines buf8 ∧ parse8 "B".data = none ∧
    readEvents (some buf8) parse8 = [] := by
  refine ⟨by decide, by decide, ?_⟩
  exact (C8_amended_whole_read buf8 parse8).1 ("B".data) (by decide) (by decide)

/-- C9: `appendEvent` appends the serialized event as one line to the log;
when the resulting line count exceeds `maxEvents` it keeps exactly the
newest `maxEvents` lines in their original relative order, dropping only
the oldest; and it succeeds when the log file does not yet exist, creating
it with the single new line. -/
theorem C9_append_retention (old : Option Str) (line : Str) (maxEvents : Nat)
    (h1 : line ≠ []) (h2 : '\n' ∉ line) (h3 : endsWithNewline (old.getD []))
    (h4 : 1 ≤ maxEvents) :
    jsLines (appendEventContent old line maxEvents)
      = (if maxEvents < (jsLines (old.getD []) ++ [line]).length
         then (jsLines (old.getD []) ++ [line]).drop
            ((jsLines (old.getD []) ++ [line]).length - maxEvents)
         else jsLines (old.getD []) ++ [line]) ∧
    (maxEvents < (jsLines (old.getD []) ++ [line]).length →
      (jsLines (appendEventContent old line maxEvents)).length = maxEvents) ∧
    (old = none → appendEventContent old line maxEvents = line ++ ['\n']) := by
  have hlines : jsLines ((old.getD []) ++ line ++ ['\n'])
      = jsLines (old.getD []) ++ [line] := jsLines_append_line _ line h3 h2 h1
  have hmem : ∀ x ∈ jsLines (old.getD []) ++ [line], x ≠ [] ∧ '\n' ∉ x := by
    intro x hx
    rcases List.mem_append.mp hx with hx | hx
    · unfold jsLines at hx
      have hx2 := List.mem_filter.mp hx
      constructor
      · intro hxe
        rw [hxe] at hx2
        simp at hx2
      · exact mem_jsSplit_not_sep '\n' _ x hx2.1
    · rw [List.mem_singleton.mp hx]
      exact ⟨h1, h2⟩
  have hmain : jsLines (appendEventContent old line maxEvents)
      = (if maxEvents < (jsLines (old.getD []) ++ [line]).length
         then (jsLines (old.getD []) ++ [line]).drop
            ((jsLines (old.getD []) ++ [line]).length - maxEvents)
         else jsLines (old.getD []) ++ [line]) := by
    unfold appendEventContent
    dsimp only
    rw [hlines]
    by_cases hlen : maxEvents < (jsLines (old.getD []) ++ [line]).length
    · rw [if_pos hlen, if_pos hlen]
      apply jsLines_join
      intro x hx
      exact hmem x (List.drop_subset _ _ hx)
    · rw [if_neg hlen, if_neg hlen]
      exact hlines
  refine ⟨hmain, ?_, ?_⟩
  · intro hlen
    rw [hmain, if_pos hlen, List.length_drop]
    omega
  · intro hnone
    subst hnone
    show appendEventContent none line maxEvents = line ++ ['\n']
    have hl : jsLines (((none : Option Str).getD []) ++ line ++ ['\n'])
        = [line] := by
      rw [hlines]
      have : jsLines (((none : Option Str).getD [])) = [] := by decide
      rw [this, List.nil_append]
    unfold appendEventContent
    dsimp only
    rw [hl]
    have hlt : ¬ (maxEvents < ([line] : List Str).length) := by
      simp only [List.length_singleton]
      omega
    rw [if_neg hlt]
    simp

/-- C9 witness: appending to a missing log creates it with the single
line `a`. -/
theorem C9_append_retention_witness :
    ("a".data ≠ ([] : Str)) ∧ ('\n' ∉ "a".data) ∧
    endsWithNewline ((none : Option Str).getD []) ∧ 1 ≤ 3 ∧
    jsLines (appendEventContent none "a".data 3) = ["a".data] ∧
    appendEventContent none "a".data 3 = "a".data ++ ['\n'] := by
  have h := C9_append_retention none "a".data 3 (by decide) (by decide)
    (Or.inl rfl) (by decide)
  exact ⟨by decide, by decide, Or.inl rfl, by decide, by decide, h.2.2 rfl⟩

/-- C10 counterexample: a file whose change appears both in the working
tree list and in the index list yields two change descriptors with the
same path, and the event built from that list carries duplicate `diffUris`
paths — the change list is not de-duplicated. -/
theorem C10_counterexample :
    (collectWorkingDiff relOfId [ch10] [ch10]).map WorkingDiff.path
      = ["u".data, "u".data] ∧
    (buildEntriesOr c10c
        ((collectWorkingDiff relOfId [ch10] [ch10]).map WorkingDiff.path)
        fs10ex).map DiffEntry.path = ["u".data, "u".data] ∧
    ¬ (["u".data, "u".data] : List Str).Nodup := by
  exact ⟨by decide, by decide, by decide⟩

/-- C10 (amended): `collectWorkingDiff` concatenates working-tree and
index changes without de-duplicating by path, so a path that is both
staged and unstaged appears twice and `diffUris` paths need not be unique
within an event; `filesChanged.length` always equals `diffUris.length`. -/
theorem C10_amended_no_dedup (relOf : Str → Str) (wt idx : List Change)
    (c : BuildCtx) (diffs : List Str) (fs : FS) (res : BuildResult)
    (hres : buildEvent c diffs fs = .ok res) :
    (collectWorkingDiff relOf wt idx).map WorkingDiff.path
      = wt.map (fun ch => relOf ch.uri) ++ idx.map (fun ch => relOf ch.uri) ∧
    res.filesChanged.length = res.entries.length := by
  constructor
  · simp only [collectWorkingDiff, List.map_append, List.map_map]
    rfl
  · unfold buildEvent at hres
    cases hb : buildLoop c diffs fs (fun _ => none) with
    | error e => rw [hb] at hres; cases hres
    | ok pr =>
      rw [hb] at hres
      cases hres
      simp [mkDiffUris]

/-- C10 (amended) witness: the duplicated change appears twice, and the
built event has as many `diffUris` entries as `filesChanged` paths. -/
theorem C10_amended_no_dedup_witness :
    (collectWorkingDiff relOfId [ch10] [ch10]).map WorkingDiff.path
      = ["u".data, "u".data] ∧
    (buildEntriesOr c10c ["u".data, "u".data] fs10ex).length = 2 := by
  have h := C10_amended_no_dedup relOfId [ch10] [ch10] c10c
    ["u".data, "u".data] fs10ex _ rfl
  refine ⟨?_, by decide⟩
  rw [h.1]
  decide

/-- C1: for every file included in an event built by `logPrompt`: if the
file does not exist on disk at build time, its recorded op is `deleted`;
otherwise, if no checkpoint reference was active or the file's content at
the checkpoint reference is absent, its op is `added`; otherwise its op is
`modified`.  (Stated for builds whose snapshot writes succeed and whose
changed files lie outside the extension's own `.promptreplay` area.) -/
theorem C1_classification (c : BuildCtx) (diffs : List Str) (fs : FS)
    (hW : c.failWrite = alwaysFalse)
    (hT : targetsOutside c.root diffs = true) :
    ∀ e ∈ buildEntriesOr c diffs fs,
      e.op = some (if fs (targetPath c.root e.path) = none then Op.deleted
        else if (match c.checkpointRef with
          | some r => c.gitShow r e.path
          | none => none) = none then Op.added
        else Op.modified) := by
  obtain ⟨res, heq, _, hentries, _, _⟩ := buildEvent_spec c diffs fs hW hT
  intro e he
  unfold buildEntriesOr at he
  rw [heq] at he
  dsimp only at he
  rw [hentries] at he
  obtain ⟨p, hp, hpe⟩ := List.mem_map.mp he
  subst hpe
  show some (classify c fs (normPath p)) = _
  unfold classify leftTextOf
  rfl

/-- C1 witness: in the three-file build, the file `c` absent from the
working tree is classified `deleted`. -/
theorem C1_classification_witness :
    c1c.failWrite = alwaysFalse ∧ targetsOutside c1c.root diffs1 = true ∧
    e1c ∈ buildEntriesOr c1c diffs1 fs1ex ∧ e1c.op = some Op.deleted := by
  refine ⟨rfl, by decide, by decide, ?_⟩
  have h := C1_classification c1c diffs1 fs1ex rfl (by decide) e1c (by decide)
  rw [h]
  decide

theorem eff2_congr (side : Side) (fs0 fs0' : FS) (d : DiffEntry)
    (h : ∀ loc, sideLoc side d = some loc → fs0 loc.fsPath = fs0' loc.fsPath) :
    eff2 side fs0 d = eff2 side fs0' d := by
  cases side with
  | after =>
    simp only [eff2]
    cases hr : d.right with
    | none => rfl
    | some loc =>
      have := h loc (by simpa [sideLoc] using hr)
      simp [readBytesFlexible, this]
  | before =>
    simp only [eff2]
    cases hr : d.left with
    | none => rfl
    | some loc =>
      have := h loc (by simpa [sideLoc] using hr)
      simp [readBytesFlexible, this]

theorem handleRestoreEvent2_value (rc : RestoreCtx) (side : Side)
    (entries : List DiffEntry) (fs : FS)
    (hIF : rc.ioFail = alwaysFalse)
    (hT : ∀ d ∈ entries, ¬ ((rc.root ++ prRoot) <+: targetPath rc.root d.path))
    (hsnap : ∀ d ∈ entries, ∀ loc, sideLoc side d = some loc →
      ¬ (backupDir rc <+: loc.fsPath) ∧ ((rc.root ++ prRoot) <+: loc.fsPath)) :
    ∀ e ∈ entries, ∀ v,
      (∀ b ∈ entries, b.path = e.path → eff2 side fs b = some v) →
      (handleRestoreEvent2 rc side entries fs).fs (targetPath rc.root e.path) = v := by
  intro e he v hv
  obtain ⟨fs1, m, hbp⟩ := backupPhase_ok_total rc hIF entries fs []
  obtain ⟨hbframe, _, _⟩ := backupPhase_ok_spec rc entries fs [] fs1 m hbp hT
  have hlocval : ∀ d ∈ entries, ∀ loc, sideLoc side d = some loc →
      fsUpd fs1 (manifestPath rc) (some (rc.encodeManifest m)) loc.fsPath
        = fs loc.fsPath := by
    intro d hd loc hloc
    obtain ⟨hnb, _⟩ := hsnap d hd loc hloc
    rw [fsUpd_ne _ _ _
      (fun he2 => hnb (by rw [he2]; exact backupDir_prefix_manifest rc))]
    exact hbframe loc.fsPath
      (fun d' hd' he2 => hnb (by rw [he2]; exact backupDir_prefix_backupFile rc d'.path))
  have htgt : ∀ d ∈ entries,
      (fun q => ∃ d' ∈ entries, targetPath rc.root d'.path = q)
        (targetPath rc.root d.path) :=
    fun d hd => ⟨d, hd, rfl⟩
  have hTloc : ∀ d ∈ entries, ∀ loc, sideLoc side d = some loc →
      ¬ (fun q => ∃ d' ∈ entries, targetPath rc.root d'.path = q) loc.fsPath := by
    intro d hd loc hloc hex
    obtain ⟨d', hd', he'⟩ := hex
    exact (ne_of_pref_not_pref (hsnap d hd loc hloc).2 (hT d' hd')) he'.symm
  have hstep : ∀ a ∈ entries, ∀ fsx cnt,
      agreeOutside (fun q => ∃ d' ∈ entries, targetPath rc.root d'.path = q)
        (fsUpd fs1 (manifestPath rc) (some (rc.encodeManifest m))) fsx →
      (applyStep2 rc.root side (fsx, cnt) a).1
        = updOpt fsx (targetPath rc.root a.path) (eff2 side fs a) := by
    intro a ha fsx cnt hag
    have h1 := applyStep2_updOpt rc.root side
      (fun q => ∃ d' ∈ entries, targetPath rc.root d'.path = q)
      (fsUpd fs1 (manifestPath rc) (some (rc.encodeManifest m))) a
      (hTloc a ha) fsx cnt hag
    rw [h1]
    have h2 := eff2_congr side
      (fsUpd fs1 (manifestPath rc) (some (rc.encodeManifest m))) fs a
      (fun loc hloc => hlocval a ha loc hloc)
    rw [h2]
  have hval := (foldl_value (applyStep2 rc.root side)
      (fun d => targetPath rc.root d.path) (eff2 side fs)
      (fun q => ∃ d' ∈ entries, targetPath rc.root d'.path = q)
      (fsUpd fs1 (manifestPath rc) (some (rc.encodeManifest m))) entries hstep htgt
      (fsUpd fs1 (manifestPath rc) (some (rc.encodeManifest m))) czero
      (fun q _ => rfl)).2.2 e he v
      (fun b hb htb => hv b hb (targetPath_inj rc.root htb))
  show (handleRestoreEvent2 rc side entries fs).fs _ = v
  unfold handleRestoreEvent2
  rw [hbp]
  exact hval

/-- C2: for every freshly built event (snapshot writes succeeding, changed
files outside the `.promptreplay` area), restoring side `after` writes
each working-tree file with `op ≠ deleted` to exactly the byte content
that was on disk at build time, and restoring side `before` writes each
file with `op ≠ added` to exactly its content at the checkpoint
reference. -/
theorem C2_snapshot_roundtrip (c : BuildCtx) (rc : RestoreCtx)
    (diffs : List Str) (fs : FS)
    (hroot : rc.root = c.root) (hid : rc.evId = c.evId)
    (hW : c.failWrite = alwaysFalse) (hIF : rc.ioFail = alwaysFalse)
    (hT : targetsOutside c.root diffs = true) :
    ∀ e ∈ buildEntriesOr c diffs fs,
      (e.op ≠ some Op.deleted →
        ∃ buf, fs (targetPath c.root e.path) = some buf ∧
          (handleRestoreEvent2 rc Side.after (buildEntriesOr c diffs fs)
            (buildFsOr c diffs fs)).fs (targetPath c.root e.path) = some buf) ∧
      (∀ cc, e.op ≠ some Op.added → leftTextOf c e.path = some cc →
        (handleRestoreEvent2 rc Side.before (buildEntriesOr c diffs fs)
          (buildFsOr c diffs fs)).fs (targetPath c.root e.path) = some cc) := by
  obtain ⟨res, heq, _, hentries, _, hcontent⟩ := buildEvent_spec c diffs fs hW hT
  have hE : buildEntriesOr c diffs fs = res.entries := by
    unfold buildEntriesOr
    rw [heq]
  have hF : buildFsOr c diffs fs = res.fs := by
    unfold buildFsOr
    rw [heq]
  rw [hE, hF]
  have huniqrep : ∀ b ∈ res.entries, ∀ e ∈ res.entries, b.path = e.path → b = e := by
    intro b hb e he hpe
    rw [hentries] at hb he
    obtain ⟨pb, hpb, hpbe⟩ := List.mem_map.mp hb
    obtain ⟨pe, hpee, hpe2⟩ := List.mem_map.mp he
    subst hpbe
    subst hpe2
    simp only at hpe
    rw [hpe]
  have hTp := targetsOutside_spec hT
  have hT' : ∀ d ∈ res.entries, ¬ ((rc.root ++ prRoot) <+: targetPath rc.root d.path) := by
    intro d hd
    rw [hentries] at hd
    obtain ⟨p, hp, hpe⟩ := List.mem_map.mp hd
    subst hpe
    rw [hroot]
    exact hTp p hp
  have hsnapA : ∀ d ∈ res.entries, ∀ loc, sideLoc Side.after d = some loc →
      ¬ (backupDir rc <+: loc.fsPath) ∧ ((rc.root ++ prRoot) <+: loc.fsPath) := by
    intro d hd loc hloc
    rw [hentries] at hd
    obtain ⟨p, hp, hpe⟩ := List.mem_map.mp hd
    subst hpe
    simp only [sideLoc, Option.some.injEq] at hloc
    subst hloc
    constructor
    · intro hb
      have hs : snapsDir rc.root rc.evId <+: rightSnapPath c.root c.evId (normPath p) := by
        rw [hroot, hid]
        exact snapsDir_prefix_rsnap c.root c.evId (normPath p)
      exact not_backupDir_prefix_of_snapsDir_prefix rc rc.evId hs hb
    · rw [hroot]
      exact prRoot_prefix_rsnap c.root c.evId (normPath p)
  have hsnapB : ∀ d ∈ res.entries, ∀ loc, sideLoc Side.before d = some loc →
      ¬ (backupDir rc <+: loc.fsPath) ∧ ((rc.root ++ prRoot) <+: loc.fsPath) := by
    intro d hd loc hloc
    rw [hentries] at hd
    obtain ⟨p, hp, hpe⟩ := List.mem_map.mp hd
    subst hpe
    simp only [sideLoc, Option.some.injEq] at hloc
    subst hloc
    constructor
    · intro hb
      have hs : snapsDir rc.root rc.evId <+: leftSnapPath c.root c.evId (normPath p) := by
        rw [hroot, hid]
        exact snapsDir_prefix_lsnap c.root c.evId (normPath p)
      exact not_backupDir_prefix_of_snapsDir_prefix rc rc.evId hs hb
    · rw [hroot]
      exact prRoot_prefix_lsnap c.root c.evId (normPath p)
  intro e he
  have he' := he
  rw [hentries] at he'
  obtain ⟨p, hp, hpe⟩ := List.mem_map.mp he'
  constructor
  · intro hop
    have hcl : classify c fs (normPath p) ≠ Op.deleted := by
      intro h
      apply hop
      rw [← hpe]
      show some (classify c fs (normPath p)) = some Op.deleted
      rw [h]
    have hbuf : ∃ buf, fs (targetPath c.root (normPath p)) = some buf := by
      unfold classify at hcl
      by_cases hn : fs (targetPath c.root (normPath p)) = none
      · rw [if_pos hn] at hcl
        exact absurd rfl hcl
      · cases hx : fs (targetPath c.root (normPath p)) with
        | none => exact absurd hx hn
        | some b => exact ⟨b, rfl⟩
    obtain ⟨buf, hbuf⟩ := hbuf
    have hpath : e.path = normPath p := by rw [← hpe]
    have heff : eff2 Side.after res.fs e = some (some buf) := by
      rw [← hpe]
      simp only [eff2]
      rw [if_neg (fun h => hcl (Option.some.inj h))]
      show (match readBytesFlexible res.fs
          (some ⟨"file".data, rightSnapPath c.root c.evId (normPath p)⟩) with
        | none => none
        | some b => some (some b)) = some (some buf)
      show (match res.fs (rightSnapPath c.root c.evId (normPath p)) with
        | none => (none : Option (Option Str))
        | some b => some (some b)) = some (some buf)
      rw [(hcontent p hp).2, hbuf]
      rfl
    refine ⟨buf, by rw [hpath]; exact hbuf, ?_⟩
    have hres := handleRestoreEvent2_value rc Side.after res.entries res.fs hIF hT'
      hsnapA e he (some buf)
      (fun b hb hbp => by rw [huniqrep b hb e he hbp]; exact heff)
    rw [hpath]
    rw [hpath] at hres
    rw [← hroot]
    exact hres
  · intro cc hop hcc
    have hpath : e.path = normPath p := by rw [← hpe]
    rw [hpath] at hcc
    have heff : eff2 Side.before res.fs e = some (some cc) := by
      rw [← hpe]
      simp only [eff2]
      have hclne : ¬ ((⟨normPath p,
          some ⟨"file".data, leftSnapPath c.root c.evId (normPath p)⟩,
          some ⟨"file".data, rightSnapPath c.root c.evId (normPath p)⟩,
          some (classify c fs (normPath p))⟩ : DiffEntry).op = some Op.added) := by
        rw [hpe]
        exact hop
      rw [if_neg hclne]
      show (match res.fs (leftSnapPath c.root c.evId (normPath p)) with
        | none => (none : Option (Option Str))
        | some b => some (some b)) = some (some cc)
      rw [(hcontent p hp).1, hcc]
      rfl
    have hres := handleRestoreEvent2_value rc Side.before res.entries res.fs hIF hT'
      hsnapB e he (some cc)
      (fun b hb hbp => by rw [huniqrep b hb e he hbp]; exact heff)
    rw [hpath]
    rw [hpath] at hres
    rw [← hroot]
    exact hres

/-- C2 witness: the one-file build of `a` restores to content `x` on side
`after` and to the checkpoint content `L` on side `before`. -/
theorem C2_snapshot_roundtrip_witness :
    rc2.root = c2c.root ∧ c2c.failWrite = alwaysFalse ∧ rc2.ioFail = alwaysFalse ∧
    targetsOutside c2c.root diffs2 = true ∧
    e2a ∈ buildEntriesOr c2c diffs2 fs2ex ∧
    (handleRestoreEvent2 rc2 Side.after (buildEntriesOr c2c diffs2 fs2ex)
      (buildFsOr c2c diffs2 fs2ex)).fs ("/r/a".data) = some "x".data ∧
    (handleRestoreEvent2 rc2 Side.before (buildEntriesOr c2c diffs2 fs2ex)
      (buildFsOr c2c diffs2 fs2ex)).fs ("/r/a".data) = some "L".data := by
  have h := C2_snapshot_roundtrip c2c rc2 diffs2 fs2ex rfl rfl rfl rfl (by decide)
    e2a (by decide)
  refine ⟨rfl, rfl, rfl, by decide, by decide, ?_, ?_⟩
  · obtain ⟨buf, h1, h2⟩ := h.1 (by decide)
    have hx : fs2ex (targetPath c2c.root e2a.path) = some "x".data := by decide
    rw [hx] at h1
    have hb : buf = "x".data := (Option.some.inj h1).symm
    rw [hb] at h2
    exact h2
  · exact h.2 ("L".data) (by decide) rfl

/-- C4: in every restore invocation, when the backup phase completes
(manifest present) it has recorded one `{path, existed}` entry per target
file and copied every existing target's current bytes into the backup
area, a copy still intact after the mutation phase; and when the backup
phase fails part-way (manifest absent) the whole restore aborts with no
working-tree file — no path outside the `.promptreplay` area — having
been mutated. -/
theorem C4_backup_before_mutate (rc : RestoreCtx) (entries : List DiffEntry)
    (fs : FS) (hT : entriesOutside rc.root entries = true) :
    ((handleRestoreEventMain rc entries fs).manifest = none →
      ∀ q, ¬ ((rc.root ++ prRoot) <+: q) →
        (handleRestoreEventMain rc entries fs).fs q = fs q) ∧
    ((handleRestoreEventMain rc entries fs).manifest ≠ none →
      (handleRestoreEventMain rc entries fs).manifest
        = some (entries.map (fun d =>
            ⟨d.path, (fs (targetPath rc.root d.path)).isSome⟩)) ∧
      (∀ d ∈ entries, ∀ buf, fs (targetPath rc.root d.path) = some buf →
        (handleRestoreEventMain rc entries fs).fs (backupFilePath rc d.path)
          = some buf)) := by
  have hTp := entriesOutside_spec hT
  unfold handleRestoreEventMain
  cases hbp : backupPhase rc entries fs [] with
  | error fsE =>
    refine ⟨?_, ?_⟩
    · intro _ q hq
      exact backupPhase_error_frame rc entries fs [] fsE hbp q
        (fun d hd he => hq (by rw [he]; exact prRoot_prefix_backupFile rc d.path))
    · intro hne
      exact absurd rfl hne
  | ok pr =>
    obtain ⟨fs1, m⟩ := pr
    obtain ⟨hbframe, hm, hcopy⟩ := backupPhase_ok_spec rc entries fs [] fs1 m hbp hTp
    refine ⟨?_, ?_⟩
    · intro hcon
      cases hcon
    · intro _
      constructor
      · rw [hm]
        rfl
      · intro d hd buf hbuf
        have hmut : (entries.foldl (applyStepMain rc)
            (fsUpd fs1 (manifestPath rc) (some (rc.encodeManifest m)), czero)).1
              (backupFilePath rc d.path)
            = fsUpd fs1 (manifestPath rc) (some (rc.encodeManifest m))
              (backupFilePath rc d.path) := by
          apply foldl_frame (applyStepMain rc)
            (fun d' => targetPath rc.root d'.path) entries
            (fun a ha => applyStepMain_frame rc a)
          intro d' hd'
          exact ne_of_pref_not_pref
            (prRoot_prefix_backupFile rc d.path) (hTp d' hd')
        show (entries.foldl (applyStepMain rc) _).1 (backupFilePath rc d.path) = some buf
        rw [hmut]
        rw [fsUpd_ne _ _ _ (Ne.symm (manifest_ne_backupFile rc d.path))]
        exact hcopy d hd buf hbuf

/-- C4 witness: restoring `entries4` records `a` (existed) and `b`
(absent) in the manifest, and `a`'s pre-restore bytes survive in the
backup area. -/
theorem C4_backup_before_mutate_witness :
    entriesOutside rc4.root entries4 = true ∧
    (handleRestoreEventMain rc4 entries4 fs4ex).manifest
      = some [⟨"a".data, true⟩, ⟨"b".data, false⟩] ∧
    (handleRestoreEventMain rc4 entries4 fs4ex).fs
      (backupFilePath rc4 "a".data) = some "old".data := by
  have h := (C4_backup_before_mutate rc4 entries4 fs4ex (by decide)).2 (by decide)
  refine ⟨by decide, ?_, ?_⟩
  · rw [h.1]
    decide
  · have hd : (⟨"a".data,
        some ⟨"file".data, leftSnapPath "/r".data "E".data "a".data⟩,
        some ⟨"file".data, rightSnapPath "/r".data "E".data "a".data⟩,
        some Op.modified⟩ : DiffEntry) ∈ entries4 := by decide
    exact h.2 _ hd ("old".data) (by decide)

/-- C5: for every restore (src extension variant) whose backup phase
completed, running undo immediately afterwards returns every file
recorded in the backup manifest to its pre-restore state: each entry with
`existed = true` is rewritten to its exact pre-restore byte content, and
each entry with `existed = false` (a file the restore may have created)
ends up absent. -/
theorem C5_undo_inverts_restore (rc : RestoreCtx) (entries : List DiffEntry)
    (fs : FS) (hT : entriesOutside rc.root entries = true) :
    ∀ e ∈ (handleRestoreEventMain rc entries fs).manifest.getD [],
      (e.existed = true → ∃ buf, fs (targetPath rc.root e.path) = some buf ∧
        (undoRestore rc ((handleRestoreEventMain rc entries fs).manifest.getD [])
          (handleRestoreEventMain rc entries fs).fs).1
          (targetPath rc.root e.path) = some buf) ∧
      (e.existed = false → fs (targetPath rc.root e.path) = none ∧
        (undoRestore rc ((handleRestoreEventMain rc entries fs).manifest.getD [])
          (handleRestoreEventMain rc entries fs).fs).1
          (targetPath rc.root e.path) = none) := by
  have hTp := entriesOutside_spec hT
  cases hbp : backupPhase rc entries fs [] with
  | error fsE =>
    intro e he
    unfold handleRestoreEventMain at he
    rw [hbp] at he
    simp at he
  | ok pr =>
    obtain ⟨fs1, m⟩ := pr
    obtain ⟨hbframe, hm, hcopy⟩ := backupPhase_ok_spec rc entries fs [] fs1 m hbp hTp
    rw [List.nil_append] at hm
    have hres : handleRestoreEventMain rc entries fs
        = ⟨(entries.foldl (applyStepMain rc)
            (fsUpd fs1 (manifestPath rc) (some (rc.encodeManifest m)), czero)).1,
           some m,
           (entries.foldl (applyStepMain rc)
            (fsUpd fs1 (manifestPath rc) (some (rc.encodeManifest m)), czero)).2⟩ := by
      unfold handleRestoreEventMain
      rw [hbp]
    rw [hres]
    show ∀ e ∈ m, _
    intro e he
    have hrep : ∀ b ∈ m, ∃ d ∈ entries, b
        = ⟨d.path, (fs (targetPath rc.root d.path)).isSome⟩ := by
      intro b hb
      rw [hm] at hb
      obtain ⟨d, hd, hdb⟩ := List.mem_map.mp hb
      exact ⟨d, hd, hdb.symm⟩
    have hTpm : ∀ b ∈ m, ¬ ((rc.root ++ prRoot) <+: targetPath rc.root b.path) := by
      intro b hb
      obtain ⟨d, hd, hdb⟩ := hrep b hb
      rw [hdb]
      exact hTp d hd
    have huniqm : ∀ b ∈ m, ∀ e' ∈ m, b.path = e'.path → b = e' := by
      intro b hb e' he' hpe
      obtain ⟨d, hd, hdb⟩ := hrep b hb
      obtain ⟨d', hd', hdb'⟩ := hrep e' he'
      rw [hdb, hdb']
      rw [hdb, hdb'] at hpe
      simp only at hpe
      rw [hpe]
    have hbfp3 : ∀ b ∈ m, (entries.foldl (applyStepMain rc)
        (fsUpd fs1 (manifestPath rc) (some (rc.encodeManifest m)), czero)).1
          (backupFilePath rc b.path)
        = fs1 (backupFilePath rc b.path) := by
      intro b hb
      have hfr : (entries.foldl (applyStepMain rc)
          (fsUpd fs1 (manifestPath rc) (some (rc.encodeManifest m)), czero)).1
            (backupFilePath rc b.path)
          = fsUpd fs1 (manifestPath rc) (some (rc.encodeManifest m))
            (backupFilePath rc b.path) := by
        apply foldl_frame (applyStepMain rc)
          (fun d' => targetPath rc.root d'.path) entries
          (fun a ha => applyStepMain_frame rc a)
        intro d' hd'
        exact ne_of_pref_not_pref
          (prRoot_prefix_backupFile rc b.path) (hTp d' hd')
      rw [hfr, fsUpd_ne _ _ _ (Ne.symm (manifest_ne_backupFile rc b.path))]
    have hstep : ∀ a ∈ m, ∀ fsx cnt,
        agreeOutside (fun q => ∃ em ∈ m, targetPath rc.root em.path = q)
          ((entries.foldl (applyStepMain rc)
            (fsUpd fs1 (manifestPath rc) (some (rc.encodeManifest m)), czero)).1) fsx →
        (undoStep rc (fsx, cnt) a).1
          = updOpt fsx (targetPath rc.root a.path)
            (effUndo rc ((entries.foldl (applyStepMain rc)
              (fsUpd fs1 (manifestPath rc) (some (rc.encodeManifest m)), czero)).1) a) := by
      intro a ha fsx cnt hag
      refine undoStep_updOpt rc (fun q => ∃ em ∈ m, targetPath rc.root em.path = q)
        ((entries.foldl (applyStepMain rc)
          (fsUpd fs1 (manifestPath rc) (some (rc.encodeManifest m)), czero)).1) a
        ?_ fsx cnt hag
      intro hex
      obtain ⟨em, hem, hee⟩ := hex
      exact (ne_of_pref_not_pref (prRoot_prefix_backupFile rc a.path)
        (hTpm em hem)) hee.symm
    have htgtm : ∀ a ∈ m,
        (fun q => ∃ em ∈ m, targetPath rc.root em.path = q)
          (targetPath rc.root a.path) :=
      fun a ha => ⟨a, ha, rfl⟩
    have hfold := foldl_value (undoStep rc)
      (fun em => targetPath rc.root em.path)
      (effUndo rc ((entries.foldl (applyStepMain rc)
        (fsUpd fs1 (manifestPath rc) (some (rc.encodeManifest m)), czero)).1))
      (fun q => ∃ em ∈ m, targetPath rc.root em.path = q)
      ((entries.foldl (applyStepMain rc)
        (fsUpd fs1 (manifestPath rc) (some (rc.encodeManifest m)), czero)).1)
      m hstep htgtm
      ((entries.foldl (applyStepMain rc)
        (fsUpd fs1 (manifestPath rc) (some (rc.encodeManifest m)), czero)).1)
      czero (fun q _ => rfl)
    obtain ⟨d, hd, hde⟩ := hrep e he
    constructor
    · intro hex
      have hsome : (fs (targetPath rc.root e.path)).isSome = true := by
        rw [hde]
        simp only
        rw [hde] at hex
        simpa using hex
      cases hbuf : fs (targetPath rc.root e.path) with
      | none => rw [hbuf] at hsome; simp at hsome
      | some buf =>
        refine ⟨buf, rfl, ?_⟩
        have heff : effUndo rc ((entries.foldl (applyStepMain rc)
            (fsUpd fs1 (manifestPath rc) (some (rc.encodeManifest m)), czero)).1) e
            = some (some buf) := by
          unfold effUndo
          rw [if_pos hex, hbfp3 e he]
          have : fs1 (backupFilePath rc e.path) = some buf := by
            have := hcopy d hd buf (by rw [hde] at hbuf; exact hbuf)
            rw [hde]
            exact this
          rw [this]
        have hval := hfold.2.2 e he (some buf) (fun b hb hbp2 => by
          rw [huniqm b hb e he (targetPath_inj rc.root hbp2)]
          exact heff)
        exact hval
    · intro hex
      have hnone : fs (targetPath rc.root e.path) = none := by
        have : (fs (targetPath rc.root e.path)).isSome = false := by
          rw [hde] at hex ⊢
          simpa using hex
        cases hx : fs (targetPath rc.root e.path) with
        | none => rfl
        | some b => rw [hx] at this; simp at this
      refine ⟨hnone, ?_⟩
      have heff : effUndo rc ((entries.foldl (applyStepMain rc)
          (fsUpd fs1 (manifestPath rc) (some (rc.encodeManifest m)), czero)).1) e
          = some none := by
        unfold effUndo
        rw [if_neg (by rw [hex]; exact fun h => Bool.false_ne_true h)]
      have hval := hfold.2.2 e he none (fun b hb hbp2 => by
        rw [huniqm b hb e he (targetPath_inj rc.root hbp2)]
        exact heff)
      exact hval

/-- C5 witness: after restoring `entries4` and undoing, the file `a`
returns to its pre-restore content `old`. -/
theorem C5_undo_inverts_restore_witness :
    entriesOutside rc4.root entries4 = true ∧
    (⟨"a".data, true⟩ : BackupEntry)
      ∈ (handleRestoreEventMain rc4 entries4 fs4ex).manifest.getD [] ∧
    (undoRestore rc4 ((handleRestoreEventMain rc4 entries4 fs4ex).manifest.getD [])
      (handleRestoreEventMain rc4 entries4 fs4ex).fs).1 ("/r/a".data)
      = some "old".data := by
  refine ⟨by decide, by decide, ?_⟩
  obtain ⟨buf, h1, h2⟩ := (C5_undo_inverts_restore rc4 entries4 fs4ex (by decide)
    (⟨"a".data, true⟩ : BackupEntry) (by decide)).1 rfl
  have hx : fs4ex (targetPath rc4.root ("a".data)) = some "old".data := by decide
  rw [hx] at h1
  have hb : buf = "old".data := (Option.some.inj h1).symm
  rw [hb] at h2
  exact h2
